import Mathlib

/-!
Verification development for the HDAStar repository: a parallel bidirectional
hash-distributed A* search on a block maze.  The C sources are shallowly
embedded below: pure data (nodes, the binary heap keyed by f-score, the
MPSC message queue viewed sequentially, the grid file) becomes Lean
structures and functions, and the worker loop of hda_star_search becomes a
deterministic step function on an explicit system state (a round-robin
sequential execution of one worker per direction, the W = 1 instance of the
algorithm; with W = 1 the hash (x+y) mod 1 routes every message to its own
worker, so this is a faithful sequential run of the code).
-/

namespace HDAStar

/-- INT_MAX from limits.h, the initial g/f score and the initial best length. -/
def INTMAX : Int := 2147483647

/-- Shallow embedding of node_t (node.h): coordinates, g/f scores, the heap
back-index (0 means not placed in a heap slot yet) and the parent id.
Node ids index the per-worker arena; the arena is modelled as a map from
ids to nodes. -/
structure SNode where
  x : Int
  y : Int
  gs : Int
  fs : Int
  heap_id : Nat
  parent : Option Nat
  deriving Repr, DecidableEq

/-- node_init from node.c: a fresh node at (x, y) with infinite scores,
no heap slot and no parent. -/
def node_init (x y : Int) : SNode :=
  ⟨x, y, INTMAX, INTMAX, 0, none⟩

/-- node_less from node.c: strict comparison of f-scores. -/
def node_less (a b : SNode) : Bool := a.fs < b.fs

/-- heuristic from compass.h: Manhattan distance between two nodes. -/
def heuristic (a b : SNode) : Int := |a.x - b.x| + |a.y - b.y|

/-- Pointwise update of a function map (used for the arena, the heap array
and the node table; mutation through a pointer becomes an update at the
pointed-to id). -/
def updMap {β α : Type} [DecidableEq β] (f : β → α) (i : β) (v : α) : β → α :=
  fun j => if j = i then v else f j

theorem updMap_same {β α : Type} [DecidableEq β] (f : β → α) (i : β) (v : α) :
    updMap f i v i = v := by
  simp [updMap]

theorem updMap_other {β α : Type} [DecidableEq β] (f : β → α) (i : β) (v : α)
    (j : β) (h : j ≠ i) : updMap f i v j = f j := by
  simp [updMap, h]

/-- The per-worker arena: node ids are indices into this map. -/
def Store : Type := Nat → SNode

/-- Binary heap state (heap.c): the 1-based array of node ids and the size
counter.  Slot 0 is never used; the real entries occupy slots 1 .. hsize-1,
so hsize = 1 is the empty heap (this convention is forced by main.c, which
tests heap.size > 1 for nonemptiness and resets heap.size = 1 to dump the
heap).  Capacity growth by realloc does not change the contents and is not
modelled. -/
structure HeapSt where
  harr : Nat → Nat
  hsize : Nat

/-- Write a node's heap back-index (node->heap_id = k through the arena). -/
def setHeapId (store : Store) (id k : Nat) : Store :=
  updMap store id { store id with heap_id := k }

/-- The sift-up loop shared by heap_insert and heap_update (heap.c):
while (cur > 1 and node_less(node, nodes[cur/2])) it moves the parent down
into slot cur, fixes the parent's back-index, and halves cur.  Returns the
updated arena, the updated array and the final hole position.  The loop is
written with a structural fuel so that it computes by kernel reduction;
since cur halves on every iteration, fuel = cur can never run out, and
siftUp_eq below recovers the exact loop recurrence of the C code. -/
def siftUpAux : Nat → Store → (Nat → Nat) → Nat → Nat → Store × (Nat → Nat) × Nat
  | 0, store, arr, _v, cur => (store, arr, cur)
  | fuel + 1, store, arr, v, cur =>
    if 1 < cur ∧ node_less (store v) (store (arr (cur / 2))) then
      siftUpAux fuel (setHeapId store (arr (cur / 2)) cur)
        (updMap arr cur (arr (cur / 2))) v (cur / 2)
    else
      (store, arr, cur)

def siftUp (store : Store) (arr : Nat → Nat) (v : Nat) (cur : Nat) :
    Store × (Nat → Nat) × Nat :=
  siftUpAux cur store arr v cur

/-- The fuel is irrelevant as long as it is at least cur. -/
theorem siftUpAux_irrel :
    ∀ f1 f2 (store : Store) (arr : Nat → Nat) (v cur : Nat), cur ≤ f1 → cur ≤ f2 →
      siftUpAux f1 store arr v cur = siftUpAux f2 store arr v cur := by
  intro f1
  induction f1 with
  | zero =>
      intro f2 store arr v cur h1 h2
      have hc : cur = 0 := by omega
      subst hc
      cases f2 with
      | zero => rfl
      | succ g =>
          simp only [siftUpAux]
          rw [if_neg (by simp)]
  | succ f ih =>
      intro f2 store arr v cur h1 h2
      cases f2 with
      | zero =>
          have hc : cur = 0 := by omega
          subst hc
          simp only [siftUpAux]
          rw [if_neg (by simp)]
      | succ g =>
          simp only [siftUpAux]
          by_cases hg : 1 < cur ∧ node_less (store v) (store (arr (cur / 2))) = true
          · rw [if_pos hg, if_pos hg]
            exact ih g _ _ v (cur / 2) (by omega) (by omega)
          · rw [if_neg hg, if_neg hg]

/-- siftUp satisfies the loop recurrence of the C code exactly. -/
theorem siftUp_eq (store : Store) (arr : Nat → Nat) (v cur : Nat) :
    siftUp store arr v cur =
      if 1 < cur ∧ node_less (store v) (store (arr (cur / 2))) then
        siftUp (setHeapId store (arr (cur / 2)) cur)
          (updMap arr cur (arr (cur / 2))) v (cur / 2)
      else
        (store, arr, cur) := by
  unfold siftUp
  by_cases hg : 1 < cur ∧ node_less (store v) (store (arr (cur / 2))) = true
  · rw [if_pos hg]
    cases cur with
    | zero => exact absurd hg.1 (by omega)
    | succ c =>
        simp only [siftUpAux]
        rw [if_pos hg]
        exact siftUpAux_irrel c ((c + 1) / 2) _ _ v ((c + 1) / 2) (by omega) (by omega)
  · rw [if_neg hg]
    cases cur with
    | zero => rfl
    | succ c =>
        simp only [siftUpAux]
        rw [if_neg hg]

/-- Writing the sifted node into the hole: nodes[cur] = node and
node->heap_id = cur (the tail of insert, extract and update in heap.c). -/
def heapPlace (store : Store) (arr : Nat → Nat) (v cur : Nat) :
    Store × (Nat → Nat) :=
  (setHeapId store v cur, updMap arr cur v)

/-- heap_insert from heap.c: the new node starts at the first free slot
(cur = size, then size is incremented), sifts up, and is written back with
its back-index. -/
def heap_insert (store : Store) (h : HeapSt) (v : Nat) : Store × HeapSt :=
  let r := siftUp store h.harr v h.hsize
  let p := heapPlace r.1 r.2.1 v r.2.2
  (p.1, ⟨p.2, h.hsize + 1⟩)

/-- The sift-down loop of heap_extract (heap.c): while the hole at cur has a
left child (2*cur < size), pick the smaller child, and move it up while it
is strictly less than the old last node.  As in siftUp the loop carries a
structural fuel (the 1 <= cur conjunct only rules out the never-used hole
position 0, where the C loop would not terminate either); cur at least
doubles per iteration, so fuel = size can never run out, and siftDown_eq
recovers the C recurrence. -/
def siftDownAux : Nat → Store → (Nat → Nat) → Nat → Nat → Nat →
    Store × (Nat → Nat) × Nat
  | 0, store, arr, _size, _last, cur => (store, arr, cur)
  | fuel + 1, store, arr, size, last, cur =>
    if 2 * cur < size ∧ 1 ≤ cur then
      if 2 * cur + 1 < size ∧ node_less (store (arr (2 * cur + 1))) (store (arr (2 * cur))) then
        if node_less (store (arr (2 * cur + 1))) (store last) then
          siftDownAux fuel (setHeapId store (arr (2 * cur + 1)) cur)
            (updMap arr cur (arr (2 * cur + 1))) size last (2 * cur + 1)
        else
          (store, arr, cur)
      else
        if node_less (store (arr (2 * cur))) (store last) then
          siftDownAux fuel (setHeapId store (arr (2 * cur)) cur)
            (updMap arr cur (arr (2 * cur))) size last (2 * cur)
        else
          (store, arr, cur)
    else
      (store, arr, cur)

def siftDown (store : Store) (arr : Nat → Nat) (size last : Nat) (cur : Nat) :
    Store × (Nat → Nat) × Nat :=
  siftDownAux size store arr size last cur

/-- The fuel is irrelevant as long as it is at least size - cur. -/
theorem siftDownAux_irrel :
    ∀ f1 f2 (store : Store) (arr : Nat → Nat) (size last cur : Nat),
      size - cur ≤ f1 → size - cur ≤ f2 →
      siftDownAux f1 store arr size last cur = siftDownAux f2 store arr size last cur := by
  intro f1
  induction f1 with
  | zero =>
      intro f2 store arr size last cur h1 h2
      have hc : size ≤ cur := by omega
      cases f2 with
      | zero => rfl
      | succ g =>
          simp only [siftDownAux]
          rw [if_neg (by omega)]
  | succ f ih =>
      intro f2 store arr size last cur h1 h2
      cases f2 with
      | zero =>
          have hc : size ≤ cur := by omega
          simp only [siftDownAux]
          rw [if_neg (by omega)]
      | succ g =>
          simp only [siftDownAux]
          by_cases hg : 2 * cur < size ∧ 1 ≤ cur
          · rw [if_pos hg, if_pos hg]
            by_cases hA : 2 * cur + 1 < size ∧
                node_less (store (arr (2 * cur + 1))) (store (arr (2 * cur))) = true
            · rw [if_pos hA, if_pos hA]
              by_cases hB : node_less (store (arr (2 * cur + 1))) (store last) = true
              · rw [if_pos hB, if_pos hB]
                exact ih g _ _ size last (2 * cur + 1) (by omega) (by omega)
              · rw [if_neg hB, if_neg hB]
            · rw [if_neg hA, if_neg hA]
              by_cases hC : node_less (store (arr (2 * cur))) (store last) = true
              · rw [if_pos hC, if_pos hC]
                exact ih g _ _ size last (2 * cur) (by omega) (by omega)
              · rw [if_neg hC, if_neg hC]
          · rw [if_neg hg, if_neg hg]

/-- siftDown satisfies the loop recurrence of the C code exactly. -/
theorem siftDown_eq (store : Store) (arr : Nat → Nat) (size last cur : Nat) :
    siftDown store arr size last cur =
      if 2 * cur < size ∧ 1 ≤ cur then
        if 2 * cur + 1 < size ∧
            node_less (store (arr (2 * cur + 1))) (store (arr (2 * cur))) then
          if node_less (store (arr (2 * cur + 1))) (store last) then
            siftDown (setHeapId store (arr (2 * cur + 1)) cur)
              (updMap arr cur (arr (2 * cur + 1))) size last (2 * cur + 1)
          else
            (store, arr, cur)
        else
          if node_less (store (arr (2 * cur))) (store last) then
            siftDown (setHeapId store (arr (2 * cur)) cur)
              (updMap arr cur (arr (2 * cur))) size last (2 * cur)
          else
            (store, arr, cur)
      else
        (store, arr, cur) := by
  unfold siftDown
  by_cases hg : 2 * cur < size ∧ 1 ≤ cur
  · have hsz : 1 ≤ size := by omega
    cases size with
    | zero => exact absurd hg (by omega)
    | succ sz =>
        simp only [siftDownAux]
        rw [if_pos hg, if_pos hg]
        by_cases hA : 2 * cur + 1 < sz + 1 ∧
            node_less (store (arr (2 * cur + 1))) (store (arr (2 * cur))) = true
        · rw [if_pos hA, if_pos hA]
          by_cases hB : node_less (store (arr (2 * cur + 1))) (store last) = true
          · rw [if_pos hB, if_pos hB]
            exact siftDownAux_irrel sz (sz + 1) _ _ (sz + 1) last (2 * cur + 1)
              (by omega) (by omega)
          · rw [if_neg hB, if_neg hB]
        · rw [if_neg hA, if_neg hA]
          by_cases hC : node_less (store (arr (2 * cur))) (store last) = true
          · rw [if_pos hC, if_pos hC]
            exact siftDownAux_irrel sz (sz + 1) _ _ (sz + 1) last (2 * cur)
              (by omega) (by omega)
          · rw [if_neg hC, if_neg hC]
  · cases size with
    | zero =>
        simp only [siftDownAux]
        rw [if_neg hg]
    | succ sz =>
        simp only [siftDownAux]
        rw [if_neg hg, if_neg hg]

/-- heap_extract from heap.c: returns the id at slot 1, removes the last
slot, sifts the old last node down from the root and writes it back. -/
def heap_extract (store : Store) (h : HeapSt) : Nat × Store × HeapSt :=
  let ret := h.harr 1
  let size := h.hsize - 1
  let last := h.harr size
  let r := siftDown store h.harr size last 1
  let p := heapPlace r.1 r.2.1 last r.2.2
  (ret, p.1, ⟨p.2, size⟩)

/-- heap_update from heap.c: sift the node up from its recorded back-index
after its f-score was lowered. -/
def heap_update (store : Store) (h : HeapSt) (v : Nat) : Store × HeapSt :=
  let r := siftUp store h.harr v ((store v).heap_id)
  let p := heapPlace r.1 r.2.1 v r.2.2
  (p.1, ⟨p.2, h.hsize⟩)

/-! ### Heap well-formedness -/

/-- Back-index consistency: every occupied slot i (1 ≤ i < size) holds a node
whose heap_id points back at i; this is the heap-to-node half of the spec
sentence about heap_id. -/
def backPtr (store : Store) (arr : Nat → Nat) (size : Nat) : Prop :=
  ∀ i, i < size → 1 ≤ i → (store (arr i)).heap_id = i

/-- The min-heap order on f-scores: the parent slot i/2 of every occupied
slot i (2 ≤ i < size) holds a node with f no larger. -/
def heapOrd (store : Store) (arr : Nat → Nat) (size : Nat) : Prop :=
  ∀ i, i < size → 2 ≤ i → (store (arr (i / 2))).fs ≤ (store (arr i)).fs

theorem setHeapId_fs (s : Store) (id k j : Nat) :
    ((setHeapId s id k) j).fs = (s j).fs := by
  by_cases h : j = id
  · subst h; simp [setHeapId, updMap]
  · simp [setHeapId, updMap, h]

theorem setHeapId_x (s : Store) (id k j : Nat) :
    ((setHeapId s id k) j).x = (s j).x := by
  by_cases h : j = id
  · subst h; simp [setHeapId, updMap]
  · simp [setHeapId, updMap, h]

theorem setHeapId_y (s : Store) (id k j : Nat) :
    ((setHeapId s id k) j).y = (s j).y := by
  by_cases h : j = id
  · subst h; simp [setHeapId, updMap]
  · simp [setHeapId, updMap, h]

theorem setHeapId_gs (s : Store) (id k j : Nat) :
    ((setHeapId s id k) j).gs = (s j).gs := by
  by_cases h : j = id
  · subst h; simp [setHeapId, updMap]
  · simp [setHeapId, updMap, h]

theorem setHeapId_parent (s : Store) (id k j : Nat) :
    ((setHeapId s id k) j).parent = (s j).parent := by
  by_cases h : j = id
  · subst h; simp [setHeapId, updMap]
  · simp [setHeapId, updMap, h]

theorem setHeapId_same (s : Store) (id k : Nat) :
    ((setHeapId s id k) id).heap_id = k := by
  simp [setHeapId, updMap]

theorem setHeapId_other (s : Store) (id k j : Nat) (h : j ≠ id) :
    (setHeapId s id k) j = s j := by
  simp [setHeapId, updMap, h]

theorem node_less_iff (a b : SNode) : node_less a b = true ↔ a.fs < b.fs := by
  simp [node_less]

/-- The combination sift-up-then-place used by both heap_insert and
heap_update. -/
def siftPlaceUp (store : Store) (arr : Nat → Nat) (v cur : Nat) :
    Store × (Nat → Nat) :=
  heapPlace (siftUp store arr v cur).1 (siftUp store arr v cur).2.1 v
    (siftUp store arr v cur).2.2

theorem heap_insert_eq (store : Store) (h : HeapSt) (v : Nat) :
    heap_insert store h v =
      ((siftPlaceUp store h.harr v h.hsize).1,
       ⟨(siftPlaceUp store h.harr v h.hsize).2, h.hsize + 1⟩) := rfl

theorem heap_update_eq (store : Store) (h : HeapSt) (v : Nat) :
    heap_update store h v =
      ((siftPlaceUp store h.harr v ((store v).heap_id)).1,
       ⟨(siftPlaceUp store h.harr v ((store v).heap_id)).2, h.hsize⟩) := rfl

/-- Master specification of the sift-up loop followed by the final
placement.  The hole at cur is being filled with node v; all hypotheses are
the usual almost-heap conditions (back-indices and order hold away from the
hole, v is not stored elsewhere, v and the hole's parent are below the
hole's children), and P is an arbitrary closure predicate on the stored
ids.  The conclusion: the array of occupied slots is back-index consistent,
min-heap ordered, and closed under P. -/
theorem siftUp_spec (P : Nat → Prop) (size : Nat) :
    ∀ (store : Store) (arr : Nat → Nat) (v cur : Nat),
    1 ≤ cur → cur < size →
    (∀ i, i < size → 1 ≤ i → i ≠ cur → (store (arr i)).heap_id = i) →
    (∀ i, i < size → 1 ≤ i → i ≠ cur → arr i ≠ v) →
    (∀ i, i < size → 2 ≤ i → i ≠ cur → (store (arr (i / 2))).fs ≤ (store (arr i)).fs) →
    (∀ j, j < size → 2 ≤ j → j / 2 = cur → (store v).fs ≤ (store (arr j)).fs) →
    (∀ j, j < size → 2 ≤ j → j / 2 = cur → 2 ≤ cur →
      (store (arr (cur / 2))).fs ≤ (store (arr j)).fs) →
    (∀ i, i < size → 1 ≤ i → i ≠ cur → P (arr i)) → P v →
    backPtr (siftPlaceUp store arr v cur).1 (siftPlaceUp store arr v cur).2 size ∧
    heapOrd (siftPlaceUp store arr v cur).1 (siftPlaceUp store arr v cur).2 size ∧
    (∀ i, i < size → 1 ≤ i → P ((siftPlaceUp store arr v cur).2 i)) := by
  intro store₀ arr₀ v₀ cur₀
  induction cur₀ using Nat.strong_induction_on generalizing store₀ arr₀ v₀ with
  | _ cur ih =>
    revert store₀ arr₀ v₀
    intro store arr v hcur1 hcurlt hbp hnv hord hvch hpch hP hPv
    by_cases h : 1 < cur ∧ node_less (store v) (store (arr (cur / 2))) = true
    · have hlt : (store v).fs < (store (arr (cur / 2))).fs := (node_less_iff _ _).mp h.2
      have hc2 : 2 ≤ cur := h.1
      have hhalf1 : 1 ≤ cur / 2 := Nat.one_le_div_iff (by omega) |>.mpr (by omega)
      have hhalflt : cur / 2 < cur := Nat.div_lt_self (by omega) (by omega)
      have hpnotv : arr (cur / 2) ≠ v := hnv _ (by omega) hhalf1 (by omega)
      have hpid : (store (arr (cur / 2))).heap_id = cur / 2 :=
        hbp _ (by omega) hhalf1 (by omega)
      have hpuniq : ∀ i, i < size → 1 ≤ i → i ≠ cur → i ≠ cur / 2 →
          arr i ≠ arr (cur / 2) := by
        intro i hi h1 hic hich heq
        have := hbp i hi h1 hic
        rw [heq, hpid] at this
        exact hich this.symm
      have hres : siftPlaceUp store arr v cur =
          siftPlaceUp (setHeapId store (arr (cur / 2)) cur)
            (updMap arr cur (arr (cur / 2))) v (cur / 2) := by
        unfold siftPlaceUp
        rw [siftUp_eq, if_pos h]
      rw [hres]
      apply ih (cur / 2) hhalflt _ _ _ hhalf1 (by omega)
      · -- back-indices away from the new hole
        intro i hi h1 hic
        by_cases hc : i = cur
        · subst hc
          rw [updMap_same, setHeapId_same]
        · rw [updMap_other _ _ _ _ hc, setHeapId_other]
          · exact hbp i hi h1 hc
          · exact hpuniq i hi h1 hc hic
      · -- v is not stored away from the new hole
        intro i hi h1 hic
        by_cases hc : i = cur
        · subst hc; rw [updMap_same]; exact hpnotv
        · rw [updMap_other _ _ _ _ hc]; exact hnv i hi h1 hc
      · -- order away from the new hole
        intro i hi h2 hic
        rw [setHeapId_fs, setHeapId_fs]
        by_cases hc : i = cur
        · rw [hc, updMap_same, updMap_other _ _ _ _ (show cur / 2 ≠ cur by omega)]
        · rw [updMap_other _ _ _ _ hc]
          by_cases hpc : i / 2 = cur
          · rw [hpc, updMap_same]
            exact hpch i hi h2 hpc hc2
          · rw [updMap_other _ _ _ _ hpc]
            exact hord i hi h2 hc
      · -- v is below the children of the new hole
        intro j hj h2 hj2
        rw [setHeapId_fs, setHeapId_fs]
        by_cases hc : j = cur
        · rw [hc, updMap_same]
          exact le_of_lt hlt
        · rw [updMap_other _ _ _ _ hc]
          have horj := hord j hj h2 hc
          rw [hj2] at horj
          exact le_trans (le_of_lt hlt) horj
      · -- the new hole's parent is below the new hole's children
        intro j hj h2 hj2 hq2
        rw [setHeapId_fs, setHeapId_fs]
        have hpar := hord (cur / 2) (by omega) hq2 (by omega)
        rw [updMap_other _ _ _ _ (show cur / 2 / 2 ≠ cur by omega)]
        by_cases hc : j = cur
        · rw [hc, updMap_same]
          exact hpar
        · rw [updMap_other _ _ _ _ hc]
          have horj := hord j hj h2 hc
          rw [hj2] at horj
          exact le_trans hpar horj
      · -- P-closure away from the new hole
        intro i hi h1 hic
        by_cases hc : i = cur
        · rw [hc, updMap_same]
          exact hP (cur / 2) (by omega) hhalf1 (by omega)
        · rw [updMap_other _ _ _ _ hc]
          exact hP i hi h1 hc
      · exact hPv
    · have hres1 : (siftPlaceUp store arr v cur).1 = setHeapId store v cur := by
        unfold siftPlaceUp heapPlace
        rw [siftUp_eq, if_neg h]
      have hres2 : (siftPlaceUp store arr v cur).2 = updMap arr cur v := by
        unfold siftPlaceUp heapPlace
        rw [siftUp_eq, if_neg h]
      rw [hres1, hres2]
      refine ⟨?_, ?_, ?_⟩
      · intro i hi h1
        by_cases hc : i = cur
        · rw [hc, updMap_same, setHeapId_same]
        · rw [updMap_other _ _ _ _ hc, setHeapId_other _ _ _ _ (hnv i hi h1 hc)]
          exact hbp i hi h1 hc
      · intro i hi h2
        rw [setHeapId_fs, setHeapId_fs]
        by_cases hc : i = cur
        · rw [hc, updMap_same, updMap_other _ _ _ _ (show cur / 2 ≠ cur by omega)]
          have hnl : ¬ (node_less (store v) (store (arr (cur / 2))) = true) :=
            fun hn => h ⟨by omega, hn⟩
          rw [node_less_iff] at hnl
          exact not_lt.mp hnl
        · rw [updMap_other _ _ _ _ hc]
          by_cases hpc : i / 2 = cur
          · rw [hpc, updMap_same]
            exact hvch i hi h2 hpc
          · rw [updMap_other _ _ _ _ hpc]
            exact hord i hi h2 hc
      · intro i hi h1
        by_cases hc : i = cur
        · rw [hc, updMap_same]
          exact hPv
        · rw [updMap_other _ _ _ _ hc]
          exact hP i hi h1 hc

/-- The combination sift-down-then-place used by heap_extract. -/
def siftPlaceDown (store : Store) (arr : Nat → Nat) (size last cur : Nat) :
    Store × (Nat → Nat) :=
  heapPlace (siftDown store arr size last cur).1 (siftDown store arr size last cur).2.1
    last (siftDown store arr size last cur).2.2

theorem heap_extract_eq (store : Store) (h : HeapSt) :
    heap_extract store h =
      (h.harr 1,
       (siftPlaceDown store h.harr (h.hsize - 1) (h.harr (h.hsize - 1)) 1).1,
       ⟨(siftPlaceDown store h.harr (h.hsize - 1) (h.harr (h.hsize - 1)) 1).2,
        h.hsize - 1⟩) := rfl

/-- The fuel-indexed sift-down-then-place used to state the loop
specification; siftPlaceDown is its fuel = size instance. -/
def siftPlaceDownAux (fuel : Nat) (store : Store) (arr : Nat → Nat)
    (size last cur : Nat) : Store × (Nat → Nat) :=
  heapPlace (siftDownAux fuel store arr size last cur).1
    (siftDownAux fuel store arr size last cur).2.1
    last (siftDownAux fuel store arr size last cur).2.2

theorem siftPlaceDown_aux_eq (store : Store) (arr : Nat → Nat)
    (size last cur : Nat) :
    siftPlaceDown store arr size last cur =
      siftPlaceDownAux size store arr size last cur := rfl

/-- Master specification of the sift-down loop followed by the final
placement, in the style of siftUp_spec: the hole at cur is filled with the
old last node; hypotheses are the almost-heap conditions, plus the closure
predicate P; conclusions also record that a node id stored nowhere in the
occupied slots (other than the hole) and different from last keeps its
exact old node value. -/
theorem siftDownAux_spec (P : Nat → Prop) :
    ∀ (fuel : Nat) (store : Store) (arr : Nat → Nat) (size last cur : Nat),
    size - cur ≤ fuel → 1 ≤ cur →
    (∀ i, i < size → 1 ≤ i → i ≠ cur → (store (arr i)).heap_id = i) →
    (∀ i, i < size → 1 ≤ i → i ≠ cur → arr i ≠ last) →
    (∀ i, i < size → 2 ≤ i → i ≠ cur → (store (arr (i / 2))).fs ≤ (store (arr i)).fs) →
    (2 ≤ cur → (store (arr (cur / 2))).fs ≤ (store last).fs) →
    (∀ j, j < size → 2 ≤ j → j / 2 = cur → 2 ≤ cur →
      (store (arr (cur / 2))).fs ≤ (store (arr j)).fs) →
    (∀ i, i < size → 1 ≤ i → i ≠ cur → P (arr i)) → P last →
    backPtr (siftPlaceDownAux fuel store arr size last cur).1
      (siftPlaceDownAux fuel store arr size last cur).2 size ∧
    heapOrd (siftPlaceDownAux fuel store arr size last cur).1
      (siftPlaceDownAux fuel store arr size last cur).2 size ∧
    (∀ i, i < size → 1 ≤ i → P ((siftPlaceDownAux fuel store arr size last cur).2 i)) ∧
    (∀ id, id ≠ last → (∀ i, i < size → 1 ≤ i → i ≠ cur → arr i ≠ id) →
      (siftPlaceDownAux fuel store arr size last cur).1 id = store id) := by
  intro fuel
  induction fuel with
  | zero =>
      intro store arr size last cur hfuel hcur1 hbp hnl hord hpl hpch hP hPl
      have hg : size ≤ cur := by omega
      have hres1 : (siftPlaceDownAux 0 store arr size last cur).1 = setHeapId store last cur := by
        unfold siftPlaceDownAux heapPlace
        simp only [siftDownAux]
      have hres2 : (siftPlaceDownAux 0 store arr size last cur).2 = updMap arr cur last := by
        unfold siftPlaceDownAux heapPlace
        simp only [siftDownAux]
      rw [hres1, hres2]
      have hnoch : size ≤ 2 * cur := by omega
      refine ⟨?_, ?_, ?_, ?_⟩
      · intro i hi h1
        by_cases hc : i = cur
        · rw [hc, updMap_same, setHeapId_same]
        · rw [updMap_other _ _ _ _ hc, setHeapId_other _ _ _ _ (hnl i hi h1 hc)]
          exact hbp i hi h1 hc
      · intro i hi h2
        rw [setHeapId_fs, setHeapId_fs]
        by_cases hc : i = cur
        · rw [hc, updMap_same, updMap_other _ _ _ _ (show cur / 2 ≠ cur by omega)]
          exact hpl (by omega)
        · rw [updMap_other _ _ _ _ hc]
          by_cases hpc : i / 2 = cur
          · omega
          · rw [updMap_other _ _ _ _ hpc]
            exact hord i hi h2 hc
      · intro i hi h1
        by_cases hc : i = cur
        · rw [hc, updMap_same]
          exact hPl
        · rw [updMap_other _ _ _ _ hc]
          exact hP i hi h1 hc
      · intro id hid _
        exact setHeapId_other _ _ _ _ hid
  | succ fuel ih =>
      intro store arr size last cur hfuel hcur1 hbp hnl hord hpl hpch hP hPl
      by_cases hg : 2 * cur < size ∧ 1 ≤ cur
      · by_cases hA : 2 * cur + 1 < size ∧
            node_less (store (arr (2 * cur + 1))) (store (arr (2 * cur))) = true
        · by_cases hB : node_less (store (arr (2 * cur + 1))) (store last) = true
          · have hrlt : (store (arr (2 * cur + 1))).fs < (store (arr (2 * cur))).fs :=
              (node_less_iff _ _).mp hA.2
            have hblt : (store (arr (2 * cur + 1))).fs < (store last).fs :=
              (node_less_iff _ _).mp hB
            have hcz : 2 * cur + 1 < size := hA.1
            have hcne : 2 * cur + 1 ≠ cur := by omega
            have hcid : (store (arr (2 * cur + 1))).heap_id = 2 * cur + 1 :=
              hbp _ hcz (by omega) hcne
            have hcuniq : ∀ i, i < size → 1 ≤ i → i ≠ cur → i ≠ 2 * cur + 1 →
                arr i ≠ arr (2 * cur + 1) := by
              intro i hi h1 hic hichild heq
              have := hbp i hi h1 hic
              rw [heq, hcid] at this
              exact hichild this.symm
            have hres : siftPlaceDownAux (fuel + 1) store arr size last cur =
                siftPlaceDownAux fuel (setHeapId store (arr (2 * cur + 1)) cur)
                  (updMap arr cur (arr (2 * cur + 1))) size last (2 * cur + 1) := by
              unfold siftPlaceDownAux
              simp only [siftDownAux]
              rw [if_pos hg, if_pos hA, if_pos hB]
            rw [hres]
            have hmain := ih (setHeapId store (arr (2 * cur + 1)) cur)
              (updMap arr cur (arr (2 * cur + 1))) size last (2 * cur + 1)
              (by omega) (by omega)
              (by
                intro i hi h1 hic
                by_cases hc : i = cur
                · rw [hc, updMap_same, setHeapId_same]
                · rw [updMap_other _ _ _ _ hc, setHeapId_other]
                  · exact hbp i hi h1 hc
                  · exact hcuniq i hi h1 hc hic)
              (by
                intro i hi h1 hic
                by_cases hc : i = cur
                · rw [hc, updMap_same]
                  exact hnl _ hcz (by omega) hcne
                · rw [updMap_other _ _ _ _ hc]
                  exact hnl i hi h1 hc)
              (by
                intro i hi h2 hic
                rw [setHeapId_fs, setHeapId_fs]
                by_cases hc : i = cur
                · have h2c : 2 ≤ cur := by omega
                  rw [hc, updMap_same, updMap_other _ _ _ _ (show cur / 2 ≠ cur by omega)]
                  exact hpch _ hcz (by omega) (by omega) h2c
                · rw [updMap_other _ _ _ _ hc]
                  by_cases hpc : i / 2 = cur
                  · have hileft : i = 2 * cur := by omega
                    rw [hpc, updMap_same, hileft]
                    exact le_of_lt hrlt
                  · rw [updMap_other _ _ _ _ hpc]
                    exact hord i hi h2 hc)
              (by
                intro _
                rw [setHeapId_fs, setHeapId_fs,
                  (show (2 * cur + 1) / 2 = cur by omega), updMap_same]
                exact le_of_lt hblt)
              (by
                intro j hj h2 hj2 _
                rw [setHeapId_fs, setHeapId_fs,
                  (show (2 * cur + 1) / 2 = cur by omega), updMap_same,
                  updMap_other _ _ _ _ (show j ≠ cur by omega)]
                have := hord j hj h2 (by omega)
                rw [hj2] at this
                exact this)
              (by
                intro i hi h1 hic
                by_cases hc : i = cur
                · rw [hc, updMap_same]
                  exact hP _ hcz (by omega) hcne
                · rw [updMap_other _ _ _ _ hc]
                  exact hP i hi h1 hc)
              hPl
            refine ⟨hmain.1, hmain.2.1, hmain.2.2.1, ?_⟩
            intro id hid harr
            rw [hmain.2.2.2 id hid
              (by
                intro i hi h1 hic
                by_cases hc : i = cur
                · rw [hc, updMap_same]
                  exact harr _ hcz (by omega) hcne
                · rw [updMap_other _ _ _ _ hc]
                  exact harr i hi h1 hc)]
            exact setHeapId_other _ _ _ _ (fun he => absurd he.symm (harr _ hcz (by omega) hcne))
          · have hres1 : (siftPlaceDownAux (fuel + 1) store arr size last cur).1 = setHeapId store last cur := by
              unfold siftPlaceDownAux heapPlace
              simp only [siftDownAux]
              rw [if_pos hg, if_pos hA, if_neg hB]
            have hres2 : (siftPlaceDownAux (fuel + 1) store arr size last cur).2 = updMap arr cur last := by
              unfold siftPlaceDownAux heapPlace
              simp only [siftDownAux]
              rw [if_pos hg, if_pos hA, if_neg hB]
            rw [hres1, hres2]
            have hlr : (store last).fs ≤ (store (arr (2 * cur + 1))).fs := by
              have := (node_less_iff (store (arr (2 * cur + 1))) (store last)).not.mp hB
              omega
            have hrl : (store (arr (2 * cur + 1))).fs < (store (arr (2 * cur))).fs :=
              (node_less_iff _ _).mp hA.2
            refine ⟨?_, ?_, ?_, ?_⟩
            · intro i hi h1
              by_cases hc : i = cur
              · rw [hc, updMap_same, setHeapId_same]
              · rw [updMap_other _ _ _ _ hc, setHeapId_other _ _ _ _ (hnl i hi h1 hc)]
                exact hbp i hi h1 hc
            · intro i hi h2
              rw [setHeapId_fs, setHeapId_fs]
              by_cases hc : i = cur
              · rw [hc, updMap_same, updMap_other _ _ _ _ (show cur / 2 ≠ cur by omega)]
                exact hpl (by omega)
              · rw [updMap_other _ _ _ _ hc]
                by_cases hpc : i / 2 = cur
                · rw [hpc, updMap_same]
                  rcases (show i = 2 * cur ∨ i = 2 * cur + 1 by omega) with hii | hii
                  · rw [hii]
                    exact le_trans hlr (le_of_lt hrl)
                  · rw [hii]
                    exact hlr
                · rw [updMap_other _ _ _ _ hpc]
                  exact hord i hi h2 hc
            · intro i hi h1
              by_cases hc : i = cur
              · rw [hc, updMap_same]
                exact hPl
              · rw [updMap_other _ _ _ _ hc]
                exact hP i hi h1 hc
            · intro id hid _
              exact setHeapId_other _ _ _ _ hid
        · by_cases hC : node_less (store (arr (2 * cur))) (store last) = true
          · have hclt : (store (arr (2 * cur))).fs < (store last).fs :=
              (node_less_iff _ _).mp hC
            have hcz : 2 * cur < size := hg.1
            have hcne : 2 * cur ≠ cur := by omega
            have hcid : (store (arr (2 * cur))).heap_id = 2 * cur :=
              hbp _ hcz (by omega) hcne
            have hcuniq : ∀ i, i < size → 1 ≤ i → i ≠ cur → i ≠ 2 * cur →
                arr i ≠ arr (2 * cur) := by
              intro i hi h1 hic hichild heq
              have := hbp i hi h1 hic
              rw [heq, hcid] at this
              exact hichild this.symm
            have hres : siftPlaceDownAux (fuel + 1) store arr size last cur =
                siftPlaceDownAux fuel (setHeapId store (arr (2 * cur)) cur)
                  (updMap arr cur (arr (2 * cur))) size last (2 * cur) := by
              unfold siftPlaceDownAux
              simp only [siftDownAux]
              rw [if_pos hg, if_neg hA, if_pos hC]
            rw [hres]
            have hmain := ih (setHeapId store (arr (2 * cur)) cur)
              (updMap arr cur (arr (2 * cur))) size last (2 * cur)
              (by omega) (by omega)
              (by
                intro i hi h1 hic
                by_cases hc : i = cur
                · rw [hc, updMap_same, setHeapId_same]
                · rw [updMap_other _ _ _ _ hc, setHeapId_other]
                  · exact hbp i hi h1 hc
                  · exact hcuniq i hi h1 hc hic)
              (by
                intro i hi h1 hic
                by_cases hc : i = cur
                · rw [hc, updMap_same]
                  exact hnl _ hcz (by omega) hcne
                · rw [updMap_other _ _ _ _ hc]
                  exact hnl i hi h1 hc)
              (by
                intro i hi h2 hic
                rw [setHeapId_fs, setHeapId_fs]
                by_cases hc : i = cur
                · have h2c : 2 ≤ cur := by omega
                  rw [hc, updMap_same, updMap_other _ _ _ _ (show cur / 2 ≠ cur by omega)]
                  exact hpch _ hcz (by omega) (by omega) h2c
                · rw [updMap_other _ _ _ _ hc]
                  by_cases hpc : i / 2 = cur
                  · have hiright : i = 2 * cur + 1 := by omega
                    have hirlt : i < size := hi
                    rw [hpc, updMap_same, hiright]
                    have hnotless :
                        ¬ (node_less (store (arr (2 * cur + 1))) (store (arr (2 * cur))) = true) :=
                      fun hn => hA ⟨by omega, hn⟩
                    rw [node_less_iff] at hnotless
                    omega
                  · rw [updMap_other _ _ _ _ hpc]
                    exact hord i hi h2 hc)
              (by
                intro _
                rw [setHeapId_fs, setHeapId_fs,
                  (show 2 * cur / 2 = cur by omega), updMap_same]
                exact le_of_lt hclt)
              (by
                intro j hj h2 hj2 _
                rw [setHeapId_fs, setHeapId_fs,
                  (show 2 * cur / 2 = cur by omega), updMap_same,
                  updMap_other _ _ _ _ (show j ≠ cur by omega)]
                have := hord j hj h2 (by omega)
                rw [hj2] at this
                exact this)
              (by
                intro i hi h1 hic
                by_cases hc : i = cur
                · rw [hc, updMap_same]
                  exact hP _ hcz (by omega) hcne
                · rw [updMap_other _ _ _ _ hc]
                  exact hP i hi h1 hc)
              hPl
            refine ⟨hmain.1, hmain.2.1, hmain.2.2.1, ?_⟩
            intro id hid harr
            rw [hmain.2.2.2 id hid
              (by
                intro i hi h1 hic
                by_cases hc : i = cur
                · rw [hc, updMap_same]
                  exact harr _ hcz (by omega) hcne
                · rw [updMap_other _ _ _ _ hc]
                  exact harr i hi h1 hc)]
            exact setHeapId_other _ _ _ _ (fun he => absurd he.symm (harr _ hcz (by omega) hcne))
          · have hres1 : (siftPlaceDownAux (fuel + 1) store arr size last cur).1 = setHeapId store last cur := by
              unfold siftPlaceDownAux heapPlace
              simp only [siftDownAux]
              rw [if_pos hg, if_neg hA, if_neg hC]
            have hres2 : (siftPlaceDownAux (fuel + 1) store arr size last cur).2 = updMap arr cur last := by
              unfold siftPlaceDownAux heapPlace
              simp only [siftDownAux]
              rw [if_pos hg, if_neg hA, if_neg hC]
            rw [hres1, hres2]
            have hll : (store last).fs ≤ (store (arr (2 * cur))).fs := by
              have := (node_less_iff (store (arr (2 * cur))) (store last)).not.mp hC
              omega
            refine ⟨?_, ?_, ?_, ?_⟩
            · intro i hi h1
              by_cases hc : i = cur
              · rw [hc, updMap_same, setHeapId_same]
              · rw [updMap_other _ _ _ _ hc, setHeapId_other _ _ _ _ (hnl i hi h1 hc)]
                exact hbp i hi h1 hc
            · intro i hi h2
              rw [setHeapId_fs, setHeapId_fs]
              by_cases hc : i = cur
              · rw [hc, updMap_same, updMap_other _ _ _ _ (show cur / 2 ≠ cur by omega)]
                exact hpl (by omega)
              · rw [updMap_other _ _ _ _ hc]
                by_cases hpc : i / 2 = cur
                · rw [hpc, updMap_same]
                  rcases (show i = 2 * cur ∨ i = 2 * cur + 1 by omega) with hii | hii
                  · rw [hii]
                    exact hll
                  · have hnotless :
                        ¬ (node_less (store (arr (2 * cur + 1))) (store (arr (2 * cur))) = true) :=
                      fun hn => hA ⟨by omega, hn⟩
                    rw [node_less_iff] at hnotless
                    rw [hii]
                    omega
                · rw [updMap_other _ _ _ _ hpc]
                  exact hord i hi h2 hc
            · intro i hi h1
              by_cases hc : i = cur
              · rw [hc, updMap_same]
                exact hPl
              · rw [updMap_other _ _ _ _ hc]
                exact hP i hi h1 hc
            · intro id hid _
              exact setHeapId_other _ _ _ _ hid
      · have hres1 : (siftPlaceDownAux (fuel + 1) store arr size last cur).1 = setHeapId store last cur := by
          unfold siftPlaceDownAux heapPlace
          simp only [siftDownAux]
          rw [if_neg hg]
        have hres2 : (siftPlaceDownAux (fuel + 1) store arr size last cur).2 = updMap arr cur last := by
          unfold siftPlaceDownAux heapPlace
          simp only [siftDownAux]
          rw [if_neg hg]
        rw [hres1, hres2]
        have hnoch : size ≤ 2 * cur := by omega
        refine ⟨?_, ?_, ?_, ?_⟩
        · intro i hi h1
          by_cases hc : i = cur
          · rw [hc, updMap_same, setHeapId_same]
          · rw [updMap_other _ _ _ _ hc, setHeapId_other _ _ _ _ (hnl i hi h1 hc)]
            exact hbp i hi h1 hc
        · intro i hi h2
          rw [setHeapId_fs, setHeapId_fs]
          by_cases hc : i = cur
          · rw [hc, updMap_same, updMap_other _ _ _ _ (show cur / 2 ≠ cur by omega)]
            exact hpl (by omega)
          · rw [updMap_other _ _ _ _ hc]
            by_cases hpc : i / 2 = cur
            · omega
            · rw [updMap_other _ _ _ _ hpc]
              exact hord i hi h2 hc
        · intro i hi h1
          by_cases hc : i = cur
          · rw [hc, updMap_same]
            exact hPl
          · rw [updMap_other _ _ _ _ hc]
            exact hP i hi h1 hc
        · intro id hid _
          exact setHeapId_other _ _ _ _ hid
/-- The siftDown master specification at the adequate fuel used by
heap_extract. -/
theorem siftDown_spec (P : Nat → Prop) :
    ∀ (store : Store) (arr : Nat → Nat) (size last cur : Nat),
    1 ≤ cur →
    (∀ i, i < size → 1 ≤ i → i ≠ cur → (store (arr i)).heap_id = i) →
    (∀ i, i < size → 1 ≤ i → i ≠ cur → arr i ≠ last) →
    (∀ i, i < size → 2 ≤ i → i ≠ cur → (store (arr (i / 2))).fs ≤ (store (arr i)).fs) →
    (2 ≤ cur → (store (arr (cur / 2))).fs ≤ (store last).fs) →
    (∀ j, j < size → 2 ≤ j → j / 2 = cur → 2 ≤ cur →
      (store (arr (cur / 2))).fs ≤ (store (arr j)).fs) →
    (∀ i, i < size → 1 ≤ i → i ≠ cur → P (arr i)) → P last →
    backPtr (siftPlaceDown store arr size last cur).1
      (siftPlaceDown store arr size last cur).2 size ∧
    heapOrd (siftPlaceDown store arr size last cur).1
      (siftPlaceDown store arr size last cur).2 size ∧
    (∀ i, i < size → 1 ≤ i → P ((siftPlaceDown store arr size last cur).2 i)) ∧
    (∀ id, id ≠ last → (∀ i, i < size → 1 ≤ i → i ≠ cur → arr i ≠ id) →
      (siftPlaceDown store arr size last cur).1 id = store id) := by
  intro store arr size last cur h1 h2 h3 h4 h5 h6 h7 h8
  rw [siftPlaceDown_aux_eq]
  exact siftDownAux_spec P size store arr size last cur (by omega) h1 h2 h3 h4 h5 h6 h7 h8
/-- All heap operations touch only heap_id fields in the arena: the
position, scores and parent of every node are untouched by the sift-up
loop. -/
theorem siftUpAux_core :
    ∀ (fuel : Nat) (store : Store) (arr : Nat → Nat) (v cur : Nat) (id : Nat),
      ((siftUpAux fuel store arr v cur).1 id).x = (store id).x ∧
      ((siftUpAux fuel store arr v cur).1 id).y = (store id).y ∧
      ((siftUpAux fuel store arr v cur).1 id).gs = (store id).gs ∧
      ((siftUpAux fuel store arr v cur).1 id).fs = (store id).fs ∧
      ((siftUpAux fuel store arr v cur).1 id).parent = (store id).parent := by
  intro fuel
  induction fuel with
  | zero =>
      intro store arr v cur id
      exact ⟨rfl, rfl, rfl, rfl, rfl⟩
  | succ fuel ih =>
      intro store arr v cur id
      simp only [siftUpAux]
      by_cases h : 1 < cur ∧ node_less (store v) (store (arr (cur / 2))) = true
      · rw [if_pos h]
        have hi := ih (setHeapId store (arr (cur / 2)) cur)
          (updMap arr cur (arr (cur / 2))) v (cur / 2) id
        refine ⟨?_, ?_, ?_, ?_, ?_⟩
        · rw [hi.1, setHeapId_x]
        · rw [hi.2.1, setHeapId_y]
        · rw [hi.2.2.1, setHeapId_gs]
        · rw [hi.2.2.2.1, setHeapId_fs]
        · rw [hi.2.2.2.2, setHeapId_parent]
      · rw [if_neg h]
        exact ⟨rfl, rfl, rfl, rfl, rfl⟩

theorem siftUp_core (store : Store) (arr : Nat → Nat) (v cur : Nat) :
    ∀ id, ((siftUp store arr v cur).1 id).x = (store id).x ∧
      ((siftUp store arr v cur).1 id).y = (store id).y ∧
      ((siftUp store arr v cur).1 id).gs = (store id).gs ∧
      ((siftUp store arr v cur).1 id).fs = (store id).fs ∧
      ((siftUp store arr v cur).1 id).parent = (store id).parent := by
  intro id
  exact siftUpAux_core cur store arr v cur id

/-- Same for the sift-down loop. -/
theorem siftDownAux_core :
    ∀ (fuel : Nat) (store : Store) (arr : Nat → Nat) (size last cur : Nat) (id : Nat),
      ((siftDownAux fuel store arr size last cur).1 id).x = (store id).x ∧
      ((siftDownAux fuel store arr size last cur).1 id).y = (store id).y ∧
      ((siftDownAux fuel store arr size last cur).1 id).gs = (store id).gs ∧
      ((siftDownAux fuel store arr size last cur).1 id).fs = (store id).fs ∧
      ((siftDownAux fuel store arr size last cur).1 id).parent = (store id).parent := by
  intro fuel
  induction fuel with
  | zero =>
      intro store arr size last cur id
      exact ⟨rfl, rfl, rfl, rfl, rfl⟩
  | succ fuel ih =>
      intro store arr size last cur id
      simp only [siftDownAux]
      by_cases hg : 2 * cur < size ∧ 1 ≤ cur
      · rw [if_pos hg]
        by_cases hA : 2 * cur + 1 < size ∧
            node_less (store (arr (2 * cur + 1))) (store (arr (2 * cur))) = true
        · rw [if_pos hA]
          by_cases hB : node_less (store (arr (2 * cur + 1))) (store last) = true
          · rw [if_pos hB]
            have hi := ih (setHeapId store (arr (2 * cur + 1)) cur)
              (updMap arr cur (arr (2 * cur + 1))) size last (2 * cur + 1) id
            refine ⟨?_, ?_, ?_, ?_, ?_⟩
            · rw [hi.1, setHeapId_x]
            · rw [hi.2.1, setHeapId_y]
            · rw [hi.2.2.1, setHeapId_gs]
            · rw [hi.2.2.2.1, setHeapId_fs]
            · rw [hi.2.2.2.2, setHeapId_parent]
          · rw [if_neg hB]
            exact ⟨rfl, rfl, rfl, rfl, rfl⟩
        · rw [if_neg hA]
          by_cases hC : node_less (store (arr (2 * cur))) (store last) = true
          · rw [if_pos hC]
            have hi := ih (setHeapId store (arr (2 * cur)) cur)
              (updMap arr cur (arr (2 * cur))) size last (2 * cur) id
            refine ⟨?_, ?_, ?_, ?_, ?_⟩
            · rw [hi.1, setHeapId_x]
            · rw [hi.2.1, setHeapId_y]
            · rw [hi.2.2.1, setHeapId_gs]
            · rw [hi.2.2.2.1, setHeapId_fs]
            · rw [hi.2.2.2.2, setHeapId_parent]
          · rw [if_neg hC]
            exact ⟨rfl, rfl, rfl, rfl, rfl⟩
      · rw [if_neg hg]
        exact ⟨rfl, rfl, rfl, rfl, rfl⟩

theorem siftDown_core (store : Store) (arr : Nat → Nat) (size last cur : Nat) :
    ∀ id, ((siftDown store arr size last cur).1 id).x = (store id).x ∧
      ((siftDown store arr size last cur).1 id).y = (store id).y ∧
      ((siftDown store arr size last cur).1 id).gs = (store id).gs ∧
      ((siftDown store arr size last cur).1 id).fs = (store id).fs ∧
      ((siftDown store arr size last cur).1 id).parent = (store id).parent := by
  intro id
  exact siftDownAux_core size store arr size last cur id

/-- Core preservation for insert-shaped operations including the final
placement. -/
theorem siftPlaceUp_core (store : Store) (arr : Nat → Nat) (v cur : Nat) :
    ∀ id, ((siftPlaceUp store arr v cur).1 id).x = (store id).x ∧
      ((siftPlaceUp store arr v cur).1 id).y = (store id).y ∧
      ((siftPlaceUp store arr v cur).1 id).gs = (store id).gs ∧
      ((siftPlaceUp store arr v cur).1 id).fs = (store id).fs ∧
      ((siftPlaceUp store arr v cur).1 id).parent = (store id).parent := by
  intro id
  unfold siftPlaceUp heapPlace
  have hc := siftUp_core store arr v cur id
  refine ⟨?_, ?_, ?_, ?_, ?_⟩
  · rw [setHeapId_x]; exact hc.1
  · rw [setHeapId_y]; exact hc.2.1
  · rw [setHeapId_gs]; exact hc.2.2.1
  · rw [setHeapId_fs]; exact hc.2.2.2.1
  · rw [setHeapId_parent]; exact hc.2.2.2.2

/-- Core preservation for extract including the final placement. -/
theorem siftPlaceDown_core (store : Store) (arr : Nat → Nat) (size last cur : Nat) :
    ∀ id, ((siftPlaceDown store arr size last cur).1 id).x = (store id).x ∧
      ((siftPlaceDown store arr size last cur).1 id).y = (store id).y ∧
      ((siftPlaceDown store arr size last cur).1 id).gs = (store id).gs ∧
      ((siftPlaceDown store arr size last cur).1 id).fs = (store id).fs ∧
      ((siftPlaceDown store arr size last cur).1 id).parent = (store id).parent := by
  intro id
  unfold siftPlaceDown heapPlace
  have hc := siftDown_core store arr size last cur id
  refine ⟨?_, ?_, ?_, ?_, ?_⟩
  · rw [setHeapId_x]; exact hc.1
  · rw [setHeapId_y]; exact hc.2.1
  · rw [setHeapId_gs]; exact hc.2.2.1
  · rw [setHeapId_fs]; exact hc.2.2.2.1
  · rw [setHeapId_parent]; exact hc.2.2.2.2

/-- Heap well-formedness: at least the dummy slot, back-indices and
min-heap order on the occupied slots 1 .. hsize-1. -/
def HeapWF (store : Store) (h : HeapSt) : Prop :=
  1 ≤ h.hsize ∧ backPtr store h.harr h.hsize ∧ heapOrd store h.harr h.hsize

/-- Occupied slots hold pairwise distinct ids (a consequence of back-index
consistency used repeatedly below). -/
theorem backPtr_inj (store : Store) (arr : Nat → Nat) (size : Nat)
    (hbp : backPtr store arr size) :
    ∀ i j, i < size → 1 ≤ i → j < size → 1 ≤ j → arr i = arr j → i = j := by
  intro i j hi h1i hj h1j heq
  have hbi := hbp i hi h1i
  have hbj := hbp j hj h1j
  rw [heq] at hbi
  omega

/-- heap_insert keeps the heap well formed when the inserted id is not
already stored in an occupied slot. -/
theorem heap_insert_wf (store : Store) (h : HeapSt) (v : Nat)
    (hwf : HeapWF store h)
    (hfresh : ∀ i, i < h.hsize → 1 ≤ i → h.harr i ≠ v) :
    HeapWF (heap_insert store h v).1 (heap_insert store h v).2 := by
  obtain ⟨h1, hbp, hord⟩ := hwf
  have hs := siftUp_spec (fun _ => True) (h.hsize + 1) store h.harr v h.hsize
    h1 (by omega)
    (fun i hi hi1 hic => hbp i (by omega) hi1)
    (fun i hi hi1 hic => hfresh i (by omega) hi1)
    (fun i hi hi2 hic => hord i (by omega) hi2)
    (fun j hj hj2 hjc => absurd hjc (by omega))
    (fun j hj hj2 hjc => absurd hjc (by omega))
    (fun _ _ _ _ => trivial) trivial
  rw [heap_insert_eq]
  refine ⟨?_, hs.1, hs.2.1⟩
  show 1 ≤ h.hsize + 1
  omega

/-- heap_extract keeps the heap well formed when the heap is nonempty. -/
theorem heap_extract_wf (store : Store) (h : HeapSt)
    (hwf : HeapWF store h) (hne : 2 ≤ h.hsize) :
    HeapWF (heap_extract store h).2.1 (heap_extract store h).2.2 := by
  obtain ⟨h1, hbp, hord⟩ := hwf
  have hs := siftDown_spec (fun _ => True) store h.harr (h.hsize - 1)
    (h.harr (h.hsize - 1)) 1 (by omega)
    (fun i hi hi1 hic => hbp i (by omega) hi1)
    (fun i hi hi1 hic heq =>
      absurd (backPtr_inj store h.harr h.hsize hbp i (h.hsize - 1)
        (by omega) hi1 (by omega) (by omega) heq) (by omega))
    (fun i hi hi2 hic => hord i (by omega) hi2)
    (fun hcon => absurd hcon (by omega))
    (fun j hj hj2 hjc hcon => absurd hcon (by omega))
    (fun _ _ _ _ => trivial) trivial
  rw [heap_extract_eq]
  refine ⟨?_, hs.1, hs.2.1⟩
  show 1 ≤ h.hsize - 1
  omega

/-- heap_update keeps the heap well formed when applied to a node whose
f-score was just lowered in place (all other fields of the arena equal, the
node sits in its recorded slot, heap_id untouched by the rewrite). -/
theorem heap_update_wf (store₀ : Store) (h : HeapSt) (v : Nat) (nd : SNode)
    (hwf : HeapWF store₀ h)
    (hcur1 : 1 ≤ (store₀ v).heap_id) (hcurlt : (store₀ v).heap_id < h.hsize)
    (hslot : h.harr ((store₀ v).heap_id) = v)
    (hfs : nd.fs ≤ (store₀ v).fs) (hhid : nd.heap_id = (store₀ v).heap_id) :
    HeapWF (heap_update (updMap store₀ v nd) h v).1
      (heap_update (updMap store₀ v nd) h v).2 := by
  obtain ⟨h1, hbp, hord⟩ := hwf
  have hnotv : ∀ i, i < h.hsize → 1 ≤ i → i ≠ (store₀ v).heap_id → h.harr i ≠ v := by
    intro i hi hi1 hic heq
    have hh := hbp i hi hi1
    rw [heq] at hh
    exact hic hh.symm
  have hcureq : ((updMap store₀ v nd) v).heap_id = (store₀ v).heap_id := by
    rw [updMap_same, hhid]
  have hs := siftUp_spec (fun _ => True) h.hsize (updMap store₀ v nd) h.harr v
    ((store₀ v).heap_id) hcur1 hcurlt
    (by
      intro i hi hi1 hic
      rw [updMap_other _ _ _ _ (hnotv i hi hi1 hic)]
      exact hbp i hi hi1)
    (fun i hi hi1 hic => hnotv i hi hi1 hic)
    (by
      intro i hi hi2 hic
      rw [updMap_other _ _ _ _ (hnotv i hi (by omega) hic)]
      by_cases hpc : i / 2 = (store₀ v).heap_id
      · rw [hpc, hslot, updMap_same]
        have horc := hord i hi hi2
        rw [hpc, hslot] at horc
        exact le_trans hfs horc
      · rw [updMap_other _ _ _ _ (hnotv (i / 2) (by omega) (by omega) hpc)]
        exact hord i hi hi2)
    (by
      intro j hj hj2 hjc
      have hjne : j ≠ (store₀ v).heap_id := by omega
      rw [updMap_same, updMap_other _ _ _ _ (hnotv j hj (by omega) hjne)]
      have horj := hord j hj hj2
      rw [hjc, hslot] at horj
      exact le_trans hfs horj)
    (by
      intro j hj hj2 hjc hc2
      have hjne : j ≠ (store₀ v).heap_id := by omega
      have hpne : (store₀ v).heap_id / 2 ≠ (store₀ v).heap_id := by omega
      rw [updMap_other _ _ _ _ (hnotv j hj (by omega) hjne),
        updMap_other _ _ _ _ (hnotv ((store₀ v).heap_id / 2) (by omega) (by omega) hpne)]
      have horc := hord ((store₀ v).heap_id) hcurlt hc2
      rw [hslot] at horc
      have horj := hord j hj hj2
      rw [hjc, hslot] at horj
      exact le_trans horc horj)
    (fun _ _ _ _ => trivial) trivial
  rw [heap_update_eq, hcureq]
  exact ⟨h1, hs.1, hs.2.1⟩

/-- Back-index consistency implies the claim formulation: every node stored
in the heap satisfies heap[node.heap_id] == node. -/
theorem backPtr_nodesMatch (store : Store) (arr : Nat → Nat) (size : Nat)
    (hbp : backPtr store arr size) :
    ∀ i, i < size → 1 ≤ i → arr ((store (arr i)).heap_id) = arr i := by
  intro i hi h1
  rw [hbp i hi h1]

/-- C6: after every insert (of an id not already stored), extract-min (from
a nonempty heap), or decrease-key (on a node whose f-score was just lowered
in place), the occupied slots satisfy the min-heap order f[parent] ≤
f[child] and every stored node's back-index points back at its slot (so
heap[node.heap_id] == node). -/
theorem claim_C6_heap_ops_preserve_invariants :
    (∀ (store : Store) (h : HeapSt) (v : Nat), HeapWF store h →
      (∀ i, i < h.hsize → 1 ≤ i → h.harr i ≠ v) →
      HeapWF (heap_insert store h v).1 (heap_insert store h v).2 ∧
      (∀ i, i < (heap_insert store h v).2.hsize → 1 ≤ i →
        (heap_insert store h v).2.harr
          (((heap_insert store h v).1 ((heap_insert store h v).2.harr i)).heap_id) =
          (heap_insert store h v).2.harr i)) ∧
    (∀ (store : Store) (h : HeapSt), HeapWF store h → 2 ≤ h.hsize →
      HeapWF (heap_extract store h).2.1 (heap_extract store h).2.2 ∧
      (∀ i, i < (heap_extract store h).2.2.hsize → 1 ≤ i →
        (heap_extract store h).2.2.harr
          (((heap_extract store h).2.1 ((heap_extract store h).2.2.harr i)).heap_id) =
          (heap_extract store h).2.2.harr i)) ∧
    (∀ (store₀ : Store) (h : HeapSt) (v : Nat) (nd : SNode), HeapWF store₀ h →
      1 ≤ (store₀ v).heap_id → (store₀ v).heap_id < h.hsize →
      h.harr ((store₀ v).heap_id) = v → nd.fs ≤ (store₀ v).fs →
      nd.heap_id = (store₀ v).heap_id →
      HeapWF (heap_update (updMap store₀ v nd) h v).1
        (heap_update (updMap store₀ v nd) h v).2 ∧
      (∀ i, i < (heap_update (updMap store₀ v nd) h v).2.hsize → 1 ≤ i →
        (heap_update (updMap store₀ v nd) h v).2.harr
          (((heap_update (updMap store₀ v nd) h v).1
            ((heap_update (updMap store₀ v nd) h v).2.harr i)).heap_id) =
          (heap_update (updMap store₀ v nd) h v).2.harr i)) := by
  refine ⟨?_, ?_, ?_⟩
  · intro store h v hwf hfresh
    have hw := heap_insert_wf store h v hwf hfresh
    exact ⟨hw, backPtr_nodesMatch _ _ _ hw.2.1⟩
  · intro store h hwf hne
    have hw := heap_extract_wf store h hwf hne
    exact ⟨hw, backPtr_nodesMatch _ _ _ hw.2.1⟩
  · intro store₀ h v nd hwf h1 h2 h3 h4 h5
    have hw := heap_update_wf store₀ h v nd hwf h1 h2 h3 h4 h5
    exact ⟨hw, backPtr_nodesMatch _ _ _ hw.2.1⟩

/-- A concrete three-element well-formed heap used to exercise the heap
theorems: node id n sits at slot n with f-score 10*n. -/
def cstoreEx : Store :=
  fun n => ⟨0, 0, 0, (10 : Int) * n, if 1 ≤ n ∧ n ≤ 3 then n else 0, none⟩

def cheapEx : HeapSt := ⟨fun i => i, 4⟩

theorem claim_C6_witness :
    (HeapWF (heap_insert cstoreEx cheapEx 4).1 (heap_insert cstoreEx cheapEx 4).2 ∧
      (∀ i, i < (heap_insert cstoreEx cheapEx 4).2.hsize → 1 ≤ i →
        (heap_insert cstoreEx cheapEx 4).2.harr
          (((heap_insert cstoreEx cheapEx 4).1
            ((heap_insert cstoreEx cheapEx 4).2.harr i)).heap_id) =
          (heap_insert cstoreEx cheapEx 4).2.harr i)) ∧
    (HeapWF (heap_extract cstoreEx cheapEx).2.1 (heap_extract cstoreEx cheapEx).2.2 ∧
      (∀ i, i < (heap_extract cstoreEx cheapEx).2.2.hsize → 1 ≤ i →
        (heap_extract cstoreEx cheapEx).2.2.harr
          (((heap_extract cstoreEx cheapEx).2.1
            ((heap_extract cstoreEx cheapEx).2.2.harr i)).heap_id) =
          (heap_extract cstoreEx cheapEx).2.2.harr i)) := by
  constructor
  · exact claim_C6_heap_ops_preserve_invariants.1 cstoreEx cheapEx 4
      (by unfold HeapWF backPtr heapOrd; decide)
      (by decide)
  · exact claim_C6_heap_ops_preserve_invariants.2.1 cstoreEx cheapEx
      (by unfold HeapWF backPtr heapOrd; decide)
      (by decide)

/-- C5 fails on the code: heap_extract never clears heap_id.  On the
concrete well-formed heap cstoreEx/cheapEx the extracted node (id 1) is no
longer stored in any occupied slot, yet its heap_id is still 1, not 0. -/
theorem claim_C5_counterexample :
    (heap_extract cstoreEx cheapEx).1 = 1 ∧
    ((heap_extract cstoreEx cheapEx).2.1 1).heap_id = 1 ∧
    (∀ i, i < (heap_extract cstoreEx cheapEx).2.2.hsize → 1 ≤ i →
      (heap_extract cstoreEx cheapEx).2.2.harr i ≠ 1) := by
  refine ⟨by decide, by decide, by decide⟩

/-- C5 amended: only the node-in-heap direction of the iff holds.  After an
extract from a well-formed nonempty heap, the nodes in the occupied slots
still carry matching positive back-indices, but the removed node keeps its
stale back-index 1 (positive, never reset to 0) while no occupied slot
stores it any more. -/
theorem claim_C5_amended_heap_id (store : Store) (h : HeapSt)
    (hwf : HeapWF store h) (hne : 2 ≤ h.hsize) :
    backPtr (heap_extract store h).2.1 (heap_extract store h).2.2.harr
      (heap_extract store h).2.2.hsize ∧
    ((heap_extract store h).2.1 (heap_extract store h).1).heap_id = 1 ∧
    (∀ i, i < (heap_extract store h).2.2.hsize → 1 ≤ i →
      (heap_extract store h).2.2.harr i ≠ (heap_extract store h).1) := by
  obtain ⟨h1, hbp, hord⟩ := hwf
  by_cases hbig : 3 ≤ h.hsize
  · have hlastne : h.harr (h.hsize - 1) ≠ h.harr 1 := by
      intro heq
      have := backPtr_inj store h.harr h.hsize hbp (h.hsize - 1) 1
        (by omega) (by omega) (by omega) (by omega) heq
      omega
    have hs := siftDown_spec (fun id => id ≠ h.harr 1) store h.harr (h.hsize - 1)
      (h.harr (h.hsize - 1)) 1 (by omega)
      (fun i hi hi1 hic => hbp i (by omega) hi1)
      (fun i hi hi1 hic heq =>
        absurd (backPtr_inj store h.harr h.hsize hbp i (h.hsize - 1)
          (by omega) hi1 (by omega) (by omega) heq) (by omega))
      (fun i hi hi2 hic => hord i (by omega) hi2)
      (fun hcon => absurd hcon (by omega))
      (fun j hj hj2 hjc hcon => absurd hcon (by omega))
      (fun i hi hi1 hic heq =>
        absurd (backPtr_inj store h.harr h.hsize hbp i 1
          (by omega) hi1 (by omega) (by omega) heq) (by omega))
      hlastne
    have huntouched := hs.2.2.2 (h.harr 1) (fun heq => hlastne heq.symm)
      (fun i hi hi1 hic heq =>
        absurd (backPtr_inj store h.harr h.hsize hbp i 1
          (by omega) hi1 (by omega) (by omega) heq) hic)
    rw [heap_extract_eq]
    refine ⟨hs.1, ?_, hs.2.2.1⟩
    rw [huntouched]
    exact hbp 1 (by omega) (by omega)
  · -- h.hsize = 2: the extracted node is also the last node, and the final
    -- placement writes its heap_id back as 1.
    have hsz : h.hsize = 2 := by omega
    have hone : h.hsize - 1 = 1 := by omega
    have hguard : ¬ (2 * 1 < h.hsize - 1 ∧ 1 ≤ 1) := by omega
    have hplace1 : (siftPlaceDown store h.harr (h.hsize - 1)
        (h.harr (h.hsize - 1)) 1).1 = setHeapId store (h.harr (h.hsize - 1)) 1 := by
      unfold siftPlaceDown heapPlace
      rw [siftDown_eq, if_neg hguard]
    rw [heap_extract_eq]
    refine ⟨?_, ?_, ?_⟩
    · intro i hi hi1
      have hi2 : i < h.hsize - 1 := hi
      omega
    · rw [hplace1, hone, setHeapId_same]
    · intro i hi hi1
      have hi2 : i < h.hsize - 1 := hi
      omega

theorem claim_C5_witness :
    backPtr (heap_extract cstoreEx cheapEx).2.1
      (heap_extract cstoreEx cheapEx).2.2.harr
      (heap_extract cstoreEx cheapEx).2.2.hsize ∧
    ((heap_extract cstoreEx cheapEx).2.1
      (heap_extract cstoreEx cheapEx).1).heap_id = 1 ∧
    (∀ i, i < (heap_extract cstoreEx cheapEx).2.2.hsize → 1 ≤ i →
      (heap_extract cstoreEx cheapEx).2.2.harr i ≠
        (heap_extract cstoreEx cheapEx).1) :=
  claim_C5_amended_heap_id cstoreEx cheapEx
    (by unfold HeapWF backPtr heapOrd; decide) (by decide)

/-! ### The MPSC message queue (hda_mq_t in main.c), sequential semantics

The queue is a lock-free LIFO stack: producers push with a CAS on the head
(main.c lines 243-245), the consumer drains with an atomic exchange of the
head with NULL (line 279) and walks the chain from newest to oldest.  In a
sequential execution a successful push is exactly a cons on the head and a
drain returns the whole chain, newest first, leaving the queue empty. -/

/-- One successful CAS push: msg->next = head; head = msg. -/
def mqPush {α : Type} (q : List α) (m : α) : List α := m :: q

/-- The consumer drain: exchange head with empty, return the chain
(newest first) and the emptied queue. -/
def mqDrain {α : Type} (q : List α) : List α × List α := (q, [])

/-- A sequential history of queue operations. -/
inductive QOp (α : Type) where
  | push : α → QOp α
  | drain : QOp α

/-- Run a history against the queue implementation; returns the final queue
contents (newest first) and the list of drained chains in drain order. -/
def mqRun {α : Type} : List (QOp α) → List α → List α × List (List α)
  | [], q => (q, [])
  | QOp.push m :: ops, q => mqRun ops (mqPush q m)
  | QOp.drain :: ops, q =>
      let d := mqDrain q
      let r := mqRun ops d.2
      (r.1, d.1 :: r.2)

/-- Modelled from the spec: the reference behavior of a drain, phrased the
way the claim states it.  The pending messages since the last drain are
kept in arrival order, and each drain is required to return exactly that
group in arrival-reversed order. -/
def mqSpec {α : Type} : List (QOp α) → List α → List α × List (List α)
  | [], acc => (acc, [])
  | QOp.push m :: ops, acc => mqSpec ops (acc ++ [m])
  | QOp.drain :: ops, acc =>
      let r := mqSpec ops []
      (r.1, acc.reverse :: r.2)

/-- The values pushed by a history, in arrival order. -/
def mqPushes {α : Type} : List (QOp α) → List α
  | [] => []
  | QOp.push m :: ops => m :: mqPushes ops
  | QOp.drain :: ops => mqPushes ops

theorem mqRun_spec {α : Type} :
    ∀ (ops : List (QOp α)) (acc : List α),
      mqRun ops acc.reverse = ((mqSpec ops acc).1.reverse, (mqSpec ops acc).2) := by
  intro ops
  induction ops with
  | nil => intro acc; rfl
  | cons op ops ih =>
      intro acc
      cases op with
      | push m =>
          have := ih (acc ++ [m])
          simpa [mqRun, mqSpec, mqPush] using this
      | drain =>
          have := ih []
          simp only [mqRun, mqSpec, mqDrain]
          simp only [List.reverse_nil] at this
          rw [this]

/-- Conservation: the multiset of pushed values is exactly the final queue
plus the union of all drained chains; every pushed message is delivered to
exactly one drain (or is still pending at the end). -/
theorem mqRun_conserve {α : Type} :
    ∀ (ops : List (QOp α)) (q : List α),
      ((mqRun ops q).1 : Multiset α) + ((mqRun ops q).2.flatten : Multiset α) =
        (mqPushes ops : Multiset α) + (q : Multiset α) := by
  intro ops
  induction ops with
  | nil =>
      intro q
      simp [mqRun, mqPushes]
  | cons op ops ih =>
      intro q
      cases op with
      | push m =>
          have h0 := ih (m :: q)
          simp only [mqRun, mqPushes, mqPush]
          rw [h0]
          rw [show ((m :: q : List α) : Multiset α) = m ::ₘ (q : Multiset α) from
            (Multiset.cons_coe m q).symm,
            show ((m :: mqPushes ops : List α) : Multiset α) =
              m ::ₘ (mqPushes ops : Multiset α) from (Multiset.cons_coe m _).symm,
            Multiset.add_cons, Multiset.cons_add]
      | drain =>
          have h0 : ((mqRun ops []).1 : Multiset α) +
              ((mqRun ops []).2.flatten : Multiset α) = (mqPushes ops : Multiset α) := by
            simpa using ih []
          simp only [mqRun, mqPushes, mqDrain, List.flatten_cons]
          rw [show ((q ++ (mqRun ops []).2.flatten : List α) : Multiset α) =
            (q : Multiset α) + ((mqRun ops []).2.flatten : Multiset α) from by simp]
          rw [← h0]
          abel

/-- C8: in a sequential execution, a consumer drain exchanges the head with
empty and returns exactly the messages pushed since the previous drain in
arrival-reversed (LIFO) order; the queue is empty right after a drain, and
every pushed message ends up in exactly one drained chain (or the final
queue if never drained). -/
theorem claim_C8_mq_lifo_drain {α : Type} (ops : List (QOp α)) :
    (mqRun ops []).2 = (mqSpec ops []).2 ∧
    (mqRun ops []).1 = (mqSpec ops []).1.reverse ∧
    (∀ q : List α, mqDrain q = (q, [])) ∧
    ((mqRun ops []).1 : Multiset α) + ((mqRun ops []).2.flatten : Multiset α) =
      (mqPushes ops : Multiset α) := by
  have h := mqRun_spec ops []
  simp only [List.reverse_nil] at h
  refine ⟨by rw [h], by rw [h], fun q => rfl, ?_⟩
  have := mqRun_conserve ops []
  simpa using this

/-! ### The grid file and the bidirectional HDA* search model

The worker loop of hda_star_search (main.c lines 157-329) is embedded as a
deterministic step function for the W = 1 instance: one worker per
direction, scheduled round-robin (forward then backward).  With W = 1 the
hash (x+y) mod 1 is always 0, so every message is routed to the sending
worker's own queue and each direction owns its whole node table. -/

/-- The grid view (a collaborator per the spec): dimensions and the byte
read maze_lines(file, x, y).  The search tests bytes only against '#'. -/
structure GridFile where
  rows : Int
  cols : Int
  line : Int → Int → Char

/-- Per-direction configuration: the start cell and the heuristic goal node
passed to maze_init. -/
structure DirCfg where
  sx : Int
  sy : Int
  gx : Int
  gy : Int

/-- maze->goal: node_init(&maze->goal, goal_x, goal_y) in maze.c. -/
def goalNode (cfg : DirCfg) : SNode := node_init cfg.gx cfg.gy

/-- main.c line 397: maze_init(file->cols, file->rows, 1, 1, file->cols - 1,
file->rows - 2) — the forward direction starts at (1,1) and its heuristic
goal is the cell (cols-1, rows-2). -/
def cfgFw (f : GridFile) : DirCfg := ⟨1, 1, f.cols - 1, f.rows - 2⟩

/-- main.c line 398: maze_init(file->cols, file->rows, file->cols - 2,
file->rows - 2, 0, 1) — the backward direction starts at (cols-2, rows-2)
and its heuristic goal is the cell (0,1). -/
def cfgBw (f : GridFile) : DirCfg := ⟨f.cols - 2, f.rows - 2, 0, 1⟩

/-- hda_message_t: parent node id, target cell and tentative g-score. -/
structure Msg where
  parent : Nat
  mx : Int
  my : Int
  mgs : Int
  deriving Repr, DecidableEq

/-- The per-direction worker state: arena (store, nextId), node table
(maze->nodes), heap, own message queue, and the sent/received counters. -/
structure DirSt where
  store : Store
  nextId : Nat
  table : Int × Int → Option Nat
  heap : HeapSt
  queue : List Msg
  sent : Nat
  received : Nat

/-- The shared best-meeting record (a_star_return_t) and the finished
flag. -/
structure Shared where
  rx : Int
  ry : Int
  min_len : Int
  finished : Bool

structure Sys where
  fw : DirSt
  bw : DirSt
  sh : Shared

/-- The empty heap: slot 0 unused, no real entries (heap.size == 1, the
convention forced by main.c lines 185 and 192). -/
def emptyHeap : HeapSt := ⟨fun _ => 0, 1⟩

/-- Worker initialization (main.c lines 170-181): the worker owning the
start cell creates the start node with g = 1 and f = 1 + h(start, goal),
publishes it in the table, inserts it in its heap and counts one sent. -/
def dirInit (cfg : DirCfg) : DirSt :=
  let nd0 := node_init cfg.sx cfg.sy
  let nd := { nd0 with gs := 1, fs := 1 + heuristic nd0 (goalNode cfg) }
  let store0 : Store := updMap (fun _ => node_init 0 0) 0 nd
  let hi := heap_insert store0 emptyHeap 0
  { store := hi.1, nextId := 1,
    table := updMap (fun _ => none) (cfg.sx, cfg.sy) (some 0),
    heap := hi.2, queue := [], sent := 1, received := 0 }

/-- Message processing (main.c lines 293-316), after the target node id is
known: if the tentative g improves, rewrite parent/g/f and update or insert
in the heap (counting one received only in the update branch); otherwise
count the redundant message as received. -/
def processMsgAt (cfg : DirCfg) (st : DirSt) (m : Msg) (aid : Nat) : DirSt :=
  let adj := st.store aid
  if m.mgs < adj.gs then
    let adj2 := { adj with
      parent := some m.parent
      gs := m.mgs
      fs := m.mgs + heuristic adj (goalNode cfg) }
    let store2 := updMap st.store aid adj2
    if adj.heap_id ≠ 0 then
      let hu := heap_update store2 st.heap aid
      { st with store := hu.1, heap := hu.2, received := st.received + 1 }
    else
      let hi := heap_insert store2 st.heap aid
      { st with store := hi.1, heap := hi.2 }
  else
    { st with received := st.received + 1 }

/-- Message processing including node creation (main.c lines 293-300): a
missing table entry is allocated in this worker's arena and published. -/
def processMsg (cfg : DirCfg) (st : DirSt) (m : Msg) : DirSt :=
  match st.table (m.mx, m.my) with
  | none =>
      let aid := st.nextId
      let st1 := { st with
        store := updMap st.store aid (node_init m.mx m.my),
        table := updMap st.table (m.mx, m.my) (some aid),
        nextId := st.nextId + 1 }
      processMsgAt cfg st1 m aid
  | some aid => processMsgAt cfg st m aid

/-- The drain (main.c lines 279-322): exchange the queue head with empty
and process the chain newest-first. -/
def drainQueue (cfg : DirCfg) (st : DirSt) : DirSt :=
  st.queue.foldl (processMsg cfg) { st with queue := [] }

/-- One neighbor probe of the expansion (main.c lines 224-257): if the grid
byte is not '#' and the cell is unknown or improved, allocate a message and
push it (W = 1: onto this worker's own queue), counting one sent. -/
def openNbr (f : GridFile) (st : DirSt) (nid : Nat) (gs : Int)
    (nx ny : Int) : DirSt :=
  if f.line nx ny ≠ '#' then
    match st.table (nx, ny) with
    | none =>
        { st with queue := ⟨nid, nx, ny, gs⟩ :: st.queue, sent := st.sent + 1 }
    | some oid =>
        if gs < (st.store oid).gs then
          { st with queue := ⟨nid, nx, ny, gs⟩ :: st.queue, sent := st.sent + 1 }
        else st
  else st

/-- The expansion (main.c lines 209-258): probe the four neighbors in the
fixed order +x, -x, +y, -y with tentative g = n.g + 1. -/
def expand (f : GridFile) (st : DirSt) (nid : Nat) : DirSt :=
  let n := st.store nid
  let gs := n.gs + 1
  let st1 := openNbr f st nid gs (n.x + 1) n.y
  let st2 := openNbr f st1 nid gs (n.x - 1) n.y
  let st3 := openNbr f st2 nid gs n.x (n.y + 1)
  openNbr f st3 nid gs n.x (n.y - 1)

/-- One iteration of the main worker loop (main.c lines 184-323): extract
and prune / meet / expand when the heap is nonempty, otherwise run one idle
poll of the termination detector; every path except the prune (continue)
and the detector falls through to the drain. -/
def workerIter (f : GridFile) (cfg : DirCfg) (me other : DirSt)
    (sh : Shared) : DirSt × Shared :=
  if 1 < me.heap.hsize then
    let e := heap_extract me.store me.heap
    let n := e.2.1 e.1
    if sh.min_len ≤ n.gs then
      -- prune: dump the whole remaining heap, counting heap.size received
      ({ me with
        store := e.2.1
        heap := ⟨e.2.2.harr, 1⟩
        received := me.received + e.2.2.hsize }, sh)
    else
      match other.table (n.x, n.y) with
      | some oid =>
          -- meet: update the shared best record under the mutex
          let m := other.store oid
          let len := n.gs + m.gs
          let sh2 := if len < sh.min_len then
            { sh with min_len := len, rx := n.x, ry := n.y } else sh
          (drainQueue cfg { me with
            store := e.2.1
            heap := e.2.2
            received := me.received + 1 }, sh2)
      | none =>
          let me2 := expand f { me with store := e.2.1, heap := e.2.2 } e.1
          (drainQueue cfg { me2 with received := me2.received + 1 }, sh)
  else
    if me.queue.isEmpty then
      -- one poll of the termination detector (main.c lines 264-276);
      -- with W = 1 the summed counters are just this worker's counters
      if sh.finished ∨ (sh.min_len < INTMAX ∧ me.sent = me.received) then
        (me, { sh with finished := true })
      else
        (me, sh)
    else
      (drainQueue cfg me, sh)

/-- One scheduling step of the forward worker (skipped once finished, as
the while-loop condition !*finished would exit). -/
def stepFw (f : GridFile) (s : Sys) : Sys :=
  if s.sh.finished then s
  else
    let r := workerIter f (cfgFw f) s.fw s.bw s.sh
    { s with fw := r.1, sh := r.2 }

/-- One scheduling step of the backward worker. -/
def stepBw (f : GridFile) (s : Sys) : Sys :=
  if s.sh.finished then s
  else
    let r := workerIter f (cfgBw f) s.bw s.fw s.sh
    { s with bw := r.1, sh := r.2 }

/-- One round of the round-robin schedule: forward worker, then backward
worker. -/
def sysRound (f : GridFile) (s : Sys) : Sys := stepBw f (stepFw f s)

/-- Initial system state (main.c lines 396-423): both directions
initialized, best record (-1, -1, INT_MAX), finished = 0. -/
def sysInit (f : GridFile) : Sys :=
  { fw := dirInit (cfgFw f), bw := dirInit (cfgBw f),
    sh := { rx := -1, ry := -1, min_len := INTMAX, finished := false } }

def runSys (f : GridFile) : Nat → Sys
  | 0 => sysInit f
  | n + 1 => sysRound f (runSys f n)

/-! ### Grid reachability -/

/-- In-bounds coordinates of the grid. -/
def inB (f : GridFile) (x y : Int) : Prop :=
  0 ≤ x ∧ x < f.cols ∧ 0 ≤ y ∧ y < f.rows

/-- An open (traversable) cell: in bounds and its byte is not '#' (the only
wall test the search performs). -/
def openCell (f : GridFile) (x y : Int) : Prop :=
  inB f x y ∧ f.line x y ≠ '#'

/-- 4-adjacency of two cells. -/
def adjacent (x y x2 y2 : Int) : Prop :=
  (x2 - x).natAbs + (y2 - y).natAbs = 1

/-- A walk of n unit steps through open cells from (sx, sy) to (x, y). -/
inductive Walk (f : GridFile) (sx sy : Int) : Int → Int → Nat → Prop where
  | base : openCell f sx sy → Walk f sx sy sx sy 0
  | step {x y : Int} {n : Nat} (x2 y2 : Int) :
      Walk f sx sy x y n → adjacent x y x2 y2 → openCell f x2 y2 →
      Walk f sx sy x2 y2 (n + 1)

/-- The border of the grid is all wall (true for well-formed inputs after
maze_file_init stamps '#' over the '@' and '%' border markers). -/
def BorderWalls (f : GridFile) : Prop :=
  ∀ x y : Int, inB f x y →
    (x = 0 ∨ x = f.cols - 1 ∨ y = 0 ∨ y = f.rows - 1) → f.line x y = '#'

theorem adjacent_symm {x y x2 y2 : Int} (h : adjacent x y x2 y2) :
    adjacent x2 y2 x y := by
  unfold adjacent at h ⊢
  omega

theorem Walk.src_open {f : GridFile} {sx sy x y : Int} {n : Nat}
    (h : Walk f sx sy x y n) : openCell f sx sy := by
  induction h with
  | base h0 => exact h0
  | step _ _ _ _ _ ih => exact ih

theorem Walk.dst_open {f : GridFile} {sx sy x y : Int} {n : Nat}
    (h : Walk f sx sy x y n) : openCell f x y := by
  cases h with
  | base h0 => exact h0
  | step _ _ _ _ hopen => exact hopen

theorem Walk.front {f : GridFile} {ax ay x y bx bz : Int} {n : Nat}
    (h : Walk f ax ay x y n) (hadj : adjacent bx bz ax ay)
    (hopen : openCell f bx bz) : Walk f bx bz x y (n + 1) := by
  induction h with
  | base h0 => exact Walk.step _ _ (Walk.base hopen) hadj h0
  | step x2 y2 hw hadj2 hopen2 ih => exact Walk.step x2 y2 ih hadj2 hopen2

theorem Walk.symm {f : GridFile} {sx sy x y : Int} {n : Nat}
    (h : Walk f sx sy x y n) : Walk f x y sx sy n := by
  induction h with
  | base h0 => exact Walk.base h0
  | step x2 y2 hw hadj hopen ih =>
      exact Walk.front ih (adjacent_symm hadj) hopen

theorem Walk.trans {f : GridFile} {ax ay bx bz cx cy : Int} {n m : Nat}
    (h1 : Walk f ax ay bx bz n) (h2 : Walk f bx bz cx cy m) :
    Walk f ax ay cx cy (n + m) := by
  induction h2 with
  | base _ => exact h1
  | step x2 y2 hw hadj hopen ih => exact Walk.step x2 y2 ih hadj hopen

/-- With a full wall border, every open cell is interior. -/
theorem open_interior {f : GridFile} (hb : BorderWalls f) {x y : Int}
    (h : openCell f x y) :
    1 ≤ x ∧ x ≤ f.cols - 2 ∧ 1 ≤ y ∧ y ≤ f.rows - 2 := by
  obtain ⟨⟨hx0, hxc, hy0, hyr⟩, hnw⟩ := h
  by_contra hcon
  refine hnw (hb x y ⟨hx0, hxc, hy0, hyr⟩ ?_)
  omega

/-- Neighbors of interior cells are in bounds. -/
theorem interior_nbr_inB {f : GridFile} {x y x2 y2 : Int}
    (hint : 1 ≤ x ∧ x ≤ f.cols - 2 ∧ 1 ≤ y ∧ y ≤ f.rows - 2)
    (hadj : adjacent x y x2 y2) : inB f x2 y2 := by
  unfold adjacent at hadj
  unfold inB
  omega

/-! ### Search-model invariants -/

/-- Array-value closure of the sift-up loop. -/
theorem siftUpAux_arr_closed (P : Nat → Prop) :
    ∀ (fuel : Nat) (store : Store) (arr : Nat → Nat) (v cur : Nat),
      (∀ i, P (arr i)) →
      (∀ j, P ((siftUpAux fuel store arr v cur).2.1 j)) := by
  intro fuel
  induction fuel with
  | zero => intro store arr v cur hP j; exact hP j
  | succ fuel ih =>
      intro store arr v cur hP j
      simp only [siftUpAux]
      by_cases h : 1 < cur ∧ node_less (store v) (store (arr (cur / 2))) = true
      · rw [if_pos h]
        refine ih _ _ v (cur / 2) ?_ j
        intro i
        by_cases hc : i = cur
        · rw [hc, updMap_same]; exact hP _
        · rw [updMap_other _ _ _ _ hc]; exact hP i
      · rw [if_neg h]
        exact hP j

/-- Array-value closure of the sift-up-and-place combination. -/
theorem siftPlaceUp_arr_closed (P : Nat → Prop)
    (store : Store) (arr : Nat → Nat) (v cur : Nat)
    (hP : ∀ i, P (arr i)) (hPv : P v) :
    ∀ j, P ((siftPlaceUp store arr v cur).2 j) := by
  intro j
  unfold siftPlaceUp heapPlace
  dsimp only
  by_cases hc : j = (siftUp store arr v cur).2.2
  · rw [hc, updMap_same]; exact hPv
  · rw [updMap_other _ _ _ _ hc]
    exact siftUpAux_arr_closed P cur store arr v cur hP j

/-- Array-value closure of the sift-down loop. -/
theorem siftDownAux_arr_closed (P : Nat → Prop) :
    ∀ (fuel : Nat) (store : Store) (arr : Nat → Nat) (size last cur : Nat),
      (∀ i, P (arr i)) →
      (∀ j, P ((siftDownAux fuel store arr size last cur).2.1 j)) := by
  intro fuel
  induction fuel with
  | zero => intro store arr size last cur hP j; exact hP j
  | succ fuel ih =>
      intro store arr size last cur hP j
      simp only [siftDownAux]
      by_cases hg : 2 * cur < size ∧ 1 ≤ cur
      · rw [if_pos hg]
        by_cases hA : 2 * cur + 1 < size ∧
            node_less (store (arr (2 * cur + 1))) (store (arr (2 * cur))) = true
        · rw [if_pos hA]
          by_cases hB : node_less (store (arr (2 * cur + 1))) (store last) = true
          · rw [if_pos hB]
            refine ih _ _ size last (2 * cur + 1) ?_ j
            intro i
            by_cases hc : i = cur
            · rw [hc, updMap_same]; exact hP _
            · rw [updMap_other _ _ _ _ hc]; exact hP i
          · rw [if_neg hB]; exact hP j
        · rw [if_neg hA]
          by_cases hC : node_less (store (arr (2 * cur))) (store last) = true
          · rw [if_pos hC]
            refine ih _ _ size last (2 * cur) ?_ j
            intro i
            by_cases hc : i = cur
            · rw [hc, updMap_same]; exact hP _
            · rw [updMap_other _ _ _ _ hc]; exact hP i
          · rw [if_neg hC]; exact hP j
      · rw [if_neg hg]; exact hP j

/-- Array-value closure of the sift-down-and-place combination. -/
theorem siftPlaceDown_arr_closed (P : Nat → Prop)
    (store : Store) (arr : Nat → Nat) (size last cur : Nat)
    (hP : ∀ i, P (arr i)) (hPl : P last) :
    ∀ j, P ((siftPlaceDown store arr size last cur).2 j) := by
  intro j
  rw [siftPlaceDown_aux_eq]
  unfold siftPlaceDownAux heapPlace
  dsimp only
  by_cases hc : j = (siftDownAux size store arr size last cur).2.2
  · rw [hc, updMap_same]; exact hPl
  · rw [updMap_other _ _ _ _ hc]
    exact siftDownAux_arr_closed P size store arr size last cur hP j

/-- The per-node invariant: the node sits on an open cell, its g is at
least 1, and it is either untouched (g = f = INT_MAX) or carries a
realizable walk of g - 1 steps from the direction's start with
f = g + h(node, goal). -/
def NodeOK (f : GridFile) (cfg : DirCfg) (nd : SNode) : Prop :=
  openCell f nd.x nd.y ∧ 1 ≤ nd.gs ∧
  ((nd.gs = INTMAX ∧ nd.fs = INTMAX) ∨
   (∃ k : Nat, nd.gs = (k : Int) + 1 ∧ nd.gs < INTMAX ∧
      Walk f cfg.sx cfg.sy nd.x nd.y k ∧
      nd.fs = nd.gs + heuristic nd (goalNode cfg)))

/-- The per-message invariant: the target is an open cell and the tentative
g is one more than a realizable walk length to it. -/
def MsgOK (f : GridFile) (cfg : DirCfg) (m : Msg) : Prop :=
  openCell f m.mx m.my ∧
  ∃ k : Nat, m.mgs = (k : Int) + 1 ∧ Walk f cfg.sx cfg.sy m.mx m.my k

/-- The per-direction invariant. -/
def DirOK (f : GridFile) (cfg : DirCfg) (d : DirSt) : Prop :=
  (∀ id, id < d.nextId → NodeOK f cfg (d.store id)) ∧
  (∀ x y id, d.table (x, y) = some id →
    id < d.nextId ∧ (d.store id).x = x ∧ (d.store id).y = y) ∧
  (∀ m ∈ d.queue, MsgOK f cfg m) ∧
  (∀ i, d.heap.harr i < d.nextId) ∧
  1 ≤ d.heap.hsize ∧ 1 ≤ d.nextId

/-- The shared-record invariant, for a pair of direction configurations:
min_len is either still INT_MAX or equals a + b + 2 for realizable walks of
a and b steps from the two starts to a common cell. -/
def SharedOKg (f : GridFile) (c1 c2 : DirCfg) (sh : Shared) : Prop :=
  sh.min_len = INTMAX ∨
  (sh.min_len < INTMAX ∧ ∃ (px py : Int) (a b : Nat),
    Walk f c1.sx c1.sy px py a ∧ Walk f c2.sx c2.sy px py b ∧
    sh.min_len = (a : Int) + (b : Int) + 2)

theorem SharedOKg_swap {f : GridFile} {c1 c2 : DirCfg} {sh : Shared}
    (h : SharedOKg f c1 c2 sh) : SharedOKg f c2 c1 sh := by
  rcases h with h | ⟨hlt, px, py, a, b, h1, h2, he⟩
  · exact Or.inl h
  · exact Or.inr ⟨hlt, px, py, b, a, h2, h1, by omega⟩

/-- The whole-system invariant. -/
def SysOK (f : GridFile) (s : Sys) : Prop :=
  DirOK f (cfgFw f) s.fw ∧ DirOK f (cfgBw f) s.bw ∧
  SharedOKg f (cfgFw f) (cfgBw f) s.sh

theorem INTMAX_pos : (1 : Int) ≤ INTMAX := by unfold INTMAX; omega

/-- NodeOK only depends on the coordinate and score fields. -/
theorem NodeOK_core {f : GridFile} {cfg : DirCfg} {a b : SNode}
    (hx : a.x = b.x) (hy : a.y = b.y) (hg : a.gs = b.gs) (hf : a.fs = b.fs)
    (h : NodeOK f cfg b) : NodeOK f cfg a := by
  obtain ⟨ho, h1, hcase⟩ := h
  have hheu : heuristic a (goalNode cfg) = heuristic b (goalNode cfg) := by
    unfold heuristic
    rw [hx, hy]
  refine ⟨by rw [hx, hy]; exact ho, by rw [hg]; exact h1, ?_⟩
  rcases hcase with ⟨hgi, hfi⟩ | ⟨k, hk, hlt, hw, hfs⟩
  · exact Or.inl ⟨by rw [hg]; exact hgi, by rw [hf]; exact hfi⟩
  · refine Or.inr ⟨k, by rw [hg]; exact hk, by rw [hg]; exact hlt,
      by rw [hx, hy]; exact hw, ?_⟩
    rw [hf, hg, hheu]
    exact hfs

/-- heap_insert keeps every node's coordinate and score fields. -/
theorem heap_insert_core (store : Store) (h : HeapSt) (v : Nat) :
    ∀ id, ((heap_insert store h v).1 id).x = (store id).x ∧
      ((heap_insert store h v).1 id).y = (store id).y ∧
      ((heap_insert store h v).1 id).gs = (store id).gs ∧
      ((heap_insert store h v).1 id).fs = (store id).fs := by
  intro id
  have hc := siftPlaceUp_core store h.harr v h.hsize id
  rw [heap_insert_eq]
  exact ⟨hc.1, hc.2.1, hc.2.2.1, hc.2.2.2.1⟩

/-- heap_update keeps every node's coordinate and score fields. -/
theorem heap_update_core (store : Store) (h : HeapSt) (v : Nat) :
    ∀ id, ((heap_update store h v).1 id).x = (store id).x ∧
      ((heap_update store h v).1 id).y = (store id).y ∧
      ((heap_update store h v).1 id).gs = (store id).gs ∧
      ((heap_update store h v).1 id).fs = (store id).fs := by
  intro id
  have hc := siftPlaceUp_core store h.harr v ((store v).heap_id) id
  rw [heap_update_eq]
  exact ⟨hc.1, hc.2.1, hc.2.2.1, hc.2.2.2.1⟩

/-- heap_extract keeps every node's coordinate and score fields. -/
theorem heap_extract_core (store : Store) (h : HeapSt) :
    ∀ id, ((heap_extract store h).2.1 id).x = (store id).x ∧
      ((heap_extract store h).2.1 id).y = (store id).y ∧
      ((heap_extract store h).2.1 id).gs = (store id).gs ∧
      ((heap_extract store h).2.1 id).fs = (store id).fs := by
  intro id
  have hc := siftPlaceDown_core store h.harr (h.hsize - 1) (h.harr (h.hsize - 1)) 1 id
  rw [heap_extract_eq]
  exact ⟨hc.1, hc.2.1, hc.2.2.1, hc.2.2.2.1⟩

/-- The new heap array after heap_insert only stores old ids or the
inserted one. -/
theorem heap_insert_arr_closed (P : Nat → Prop) (store : Store) (h : HeapSt)
    (v : Nat) (hP : ∀ i, P (h.harr i)) (hPv : P v) :
    ∀ j, P ((heap_insert store h v).2.harr j) := by
  intro j
  rw [heap_insert_eq]
  exact siftPlaceUp_arr_closed P store h.harr v h.hsize hP hPv j

theorem heap_update_arr_closed (P : Nat → Prop) (store : Store) (h : HeapSt)
    (v : Nat) (hP : ∀ i, P (h.harr i)) (hPv : P v) :
    ∀ j, P ((heap_update store h v).2.harr j) := by
  intro j
  rw [heap_update_eq]
  exact siftPlaceUp_arr_closed P store h.harr v ((store v).heap_id) hP hPv j

theorem heap_extract_arr_closed (P : Nat → Prop) (store : Store) (h : HeapSt)
    (hP : ∀ i, P (h.harr i)) :
    ∀ j, P ((heap_extract store h).2.2.harr j) := by
  intro j
  rw [heap_extract_eq]
  exact siftPlaceDown_arr_closed P store h.harr (h.hsize - 1)
    (h.harr (h.hsize - 1)) 1 hP (hP _) j

theorem heap_insert_hsize (store : Store) (h : HeapSt) (v : Nat) :
    (heap_insert store h v).2.hsize = h.hsize + 1 := rfl

theorem heap_update_hsize (store : Store) (h : HeapSt) (v : Nat) :
    (heap_update store h v).2.hsize = h.hsize := rfl

theorem heap_extract_hsize (store : Store) (h : HeapSt) :
    (heap_extract store h).2.2.hsize = h.hsize - 1 := rfl

/-- Message processing at a known id preserves the direction invariant and
does not move the table, the id counter or the queue. -/
theorem processMsgAt_OK {f : GridFile} {cfg : DirCfg} (st : DirSt) (m : Msg)
    (aid : Nat) (hok : DirOK f cfg st) (hm : MsgOK f cfg m)
    (haid : aid < st.nextId)
    (hcx : (st.store aid).x = m.mx) (hcy : (st.store aid).y = m.my) :
    DirOK f cfg (processMsgAt cfg st m aid) ∧
    (processMsgAt cfg st m aid).nextId = st.nextId ∧
    (processMsgAt cfg st m aid).table = st.table ∧
    (processMsgAt cfg st m aid).queue = st.queue := by
  obtain ⟨hnodes, htab, hq, hharr, hhs, hn1⟩ := hok
  obtain ⟨hmo, k, hkeq, hkw⟩ := hm
  have hadjOK := hnodes aid haid
  have hgsle : (st.store aid).gs ≤ INTMAX := by
    rcases hadjOK.2.2 with ⟨hgi, _⟩ | ⟨k2, _, hlt, _, _⟩
    · omega
    · omega
  unfold processMsgAt
  dsimp only
  by_cases himp : m.mgs < (st.store aid).gs
  · rw [if_pos himp]
    set adj2 : SNode := { st.store aid with
      parent := some m.parent
      gs := m.mgs
      fs := m.mgs + heuristic (st.store aid) (goalNode cfg) } with hadj2
    have hadj2OK : NodeOK f cfg adj2 := by
      refine ⟨?_, ?_, Or.inr ⟨k, ?_, ?_, ?_, ?_⟩⟩
      · show openCell f (st.store aid).x (st.store aid).y
        rw [hcx, hcy]; exact hmo
      · show (1 : Int) ≤ m.mgs
        omega
      · exact hkeq
      · show m.mgs < INTMAX
        omega
      · show Walk f cfg.sx cfg.sy (st.store aid).x (st.store aid).y k
        rw [hcx, hcy]; exact hkw
      · show m.mgs + heuristic (st.store aid) (goalNode cfg) =
          m.mgs + heuristic adj2 (goalNode cfg)
        rfl
    have hstore2 : ∀ id, id < st.nextId →
        NodeOK f cfg (updMap st.store aid adj2 id) := by
      intro id hid
      by_cases hc : id = aid
      · rw [hc, updMap_same]; exact hadj2OK
      · rw [updMap_other _ _ _ _ hc]; exact hnodes id hid
    have hstore2c : ∀ id, (updMap st.store aid adj2 id).x = (st.store id).x ∧
        (updMap st.store aid adj2 id).y = (st.store id).y := by
      intro id
      by_cases hc : id = aid
      · rw [hc, updMap_same]
        exact ⟨rfl, rfl⟩
      · rw [updMap_other _ _ _ _ hc]
        exact ⟨rfl, rfl⟩
    by_cases hid0 : (st.store aid).heap_id ≠ 0
    · rw [if_pos hid0]
      refine ⟨⟨?_, ?_, hq, ?_, ?_, hn1⟩, rfl, rfl, rfl⟩
      · intro id hid
        have hc := heap_update_core (updMap st.store aid adj2) st.heap aid id
        exact NodeOK_core hc.1 hc.2.1 hc.2.2.1 hc.2.2.2 (hstore2 id hid)
      · intro x y id hbind
        have hb := htab x y id hbind
        have hc := heap_update_core (updMap st.store aid adj2) st.heap aid id
        refine ⟨hb.1, ?_, ?_⟩
        · rw [hc.1, (hstore2c id).1]; exact hb.2.1
        · rw [hc.2.1, (hstore2c id).2]; exact hb.2.2
      · intro i
        exact heap_update_arr_closed (fun w => w < st.nextId)
          (updMap st.store aid adj2) st.heap aid hharr haid i
      · show (heap_update (updMap st.store aid adj2) st.heap aid).2.hsize ≥ 1
        rw [heap_update_hsize]; exact hhs
    · rw [if_neg hid0]
      refine ⟨⟨?_, ?_, hq, ?_, ?_, hn1⟩, rfl, rfl, rfl⟩
      · intro id hid
        have hc := heap_insert_core (updMap st.store aid adj2) st.heap aid id
        exact NodeOK_core hc.1 hc.2.1 hc.2.2.1 hc.2.2.2 (hstore2 id hid)
      · intro x y id hbind
        have hb := htab x y id hbind
        have hc := heap_insert_core (updMap st.store aid adj2) st.heap aid id
        refine ⟨hb.1, ?_, ?_⟩
        · rw [hc.1, (hstore2c id).1]; exact hb.2.1
        · rw [hc.2.1, (hstore2c id).2]; exact hb.2.2
      · intro i
        exact heap_insert_arr_closed (fun w => w < st.nextId)
          (updMap st.store aid adj2) st.heap aid hharr haid i
      · show (heap_insert (updMap st.store aid adj2) st.heap aid).2.hsize ≥ 1
        rw [heap_insert_hsize]; omega
  · rw [if_neg himp]
    exact ⟨⟨hnodes, htab, hq, hharr, hhs, hn1⟩, rfl, rfl, rfl⟩

/-- Message processing (with on-demand node creation) preserves the
direction invariant, never shrinks the id counter and keeps the queue. -/
theorem processMsg_OK {f : GridFile} {cfg : DirCfg} (st : DirSt) (m : Msg)
    (hok : DirOK f cfg st) (hm : MsgOK f cfg m) :
    DirOK f cfg (processMsg cfg st m) ∧
    st.nextId ≤ (processMsg cfg st m).nextId ∧
    (processMsg cfg st m).queue = st.queue := by
  obtain ⟨hnodes, htab, hq, hharr, hhs, hn1⟩ := hok
  unfold processMsg
  cases hbind : st.table (m.mx, m.my) with
  | none =>
      have hok1 : DirOK f cfg { st with
          store := updMap st.store st.nextId (node_init m.mx m.my),
          table := updMap st.table (m.mx, m.my) (some st.nextId),
          nextId := st.nextId + 1 } := by
        refine ⟨?_, ?_, hq, ?_, hhs, by show 1 ≤ st.nextId + 1; omega⟩
        · intro id hid
          have hid2 : id < st.nextId + 1 := hid
          show NodeOK f cfg (updMap st.store st.nextId (node_init m.mx m.my) id)
          by_cases hc : id = st.nextId
          · rw [hc, updMap_same]
            exact ⟨hm.1, INTMAX_pos, Or.inl ⟨rfl, rfl⟩⟩
          · rw [updMap_other _ _ _ _ hc]
            exact hnodes id (by omega)
        · intro x y id hb
          have hb2 : updMap st.table (m.mx, m.my) (some st.nextId) (x, y) = some id := hb
          by_cases hc : ((x, y) : Int × Int) = (m.mx, m.my)
          · rw [hc, updMap_same] at hb2
            have hide : st.nextId = id := by
              injection hb2
            have hx2 : x = m.mx := congrArg Prod.fst hc
            have hy2 : y = m.my := congrArg Prod.snd hc
            refine ⟨by show id < st.nextId + 1; omega, ?_, ?_⟩
            · show (updMap st.store st.nextId (node_init m.mx m.my) id).x = x
              rw [← hide, updMap_same, hx2]
              rfl
            · show (updMap st.store st.nextId (node_init m.mx m.my) id).y = y
              rw [← hide, updMap_same, hy2]
              rfl
          · rw [updMap_other _ _ _ _ hc] at hb2
            have hbo := htab x y id hb2
            refine ⟨by show id < st.nextId + 1; omega, ?_, ?_⟩
            · show (updMap st.store st.nextId (node_init m.mx m.my) id).x = x
              rw [updMap_other _ _ _ _ (by omega)]
              exact hbo.2.1
            · show (updMap st.store st.nextId (node_init m.mx m.my) id).y = y
              rw [updMap_other _ _ _ _ (by omega)]
              exact hbo.2.2
        · intro i
          show st.heap.harr i < st.nextId + 1
          have := hharr i
          omega
      have hres := processMsgAt_OK _ m st.nextId hok1 hm
        (by show st.nextId < st.nextId + 1; omega)
        (by show (updMap st.store st.nextId (node_init m.mx m.my) st.nextId).x = m.mx
            rw [updMap_same]; rfl)
        (by show (updMap st.store st.nextId (node_init m.mx m.my) st.nextId).y = m.my
            rw [updMap_same]; rfl)
      refine ⟨hres.1, ?_, hres.2.2.2⟩
      have h2 := hres.2.1
      rw [h2]
      show st.nextId ≤ st.nextId + 1
      omega
  | some aid =>
      have hb := htab m.mx m.my aid hbind
      have hres := processMsgAt_OK st m aid ⟨hnodes, htab, hq, hharr, hhs, hn1⟩
        hm hb.1 hb.2.1 hb.2.2
      refine ⟨hres.1, ?_, hres.2.2.2⟩
      rw [hres.2.1]

/-- Folding message processing over a list of well-formed messages
preserves the direction invariant. -/
theorem foldl_processMsg_OK {f : GridFile} {cfg : DirCfg} :
    ∀ (msgs : List Msg) (st : DirSt), DirOK f cfg st →
      (∀ m ∈ msgs, MsgOK f cfg m) →
      DirOK f cfg (msgs.foldl (processMsg cfg) st) := by
  intro msgs
  induction msgs with
  | nil => intro st hok _; exact hok
  | cons m msgs ih =>
      intro st hok hms
      simp only [List.foldl_cons]
      exact ih (processMsg cfg st m)
        (processMsg_OK st m hok (hms m (by simp))).1
        (fun m2 hm2 => hms m2 (by simp [hm2]))

/-- The drain preserves the direction invariant (and empties the queue, so
the queued-message condition becomes trivial). -/
theorem drainQueue_OK {f : GridFile} {cfg : DirCfg} (st : DirSt)
    (hok : DirOK f cfg st) : DirOK f cfg (drainQueue cfg st) := by
  obtain ⟨hnodes, htab, hq, hharr, hhs, hn1⟩ := hok
  unfold drainQueue
  refine foldl_processMsg_OK st.queue _ ⟨hnodes, htab, ?_, hharr, hhs, hn1⟩ hq
  intro m hm
  simp only [List.not_mem_nil] at hm

/-- One neighbor probe preserves the direction invariant provided the
pushed message is well formed whenever the byte test passes. -/
theorem openNbr_OK {f : GridFile} {cfg : DirCfg} (st : DirSt) (nid : Nat)
    (gs : Int) (nx ny : Int) (hok : DirOK f cfg st)
    (hmsg : f.line nx ny ≠ '#' → MsgOK f cfg ⟨nid, nx, ny, gs⟩) :
    DirOK f cfg (openNbr f st nid gs nx ny) ∧
    (openNbr f st nid gs nx ny).store = st.store ∧
    (openNbr f st nid gs nx ny).table = st.table ∧
    (openNbr f st nid gs nx ny).heap = st.heap ∧
    (openNbr f st nid gs nx ny).nextId = st.nextId := by
  obtain ⟨hnodes, htab, hq, hharr, hhs, hn1⟩ := hok
  unfold openNbr
  by_cases hw : f.line nx ny ≠ '#'
  · rw [if_pos hw]
    cases hbind : st.table (nx, ny) with
    | none =>
        dsimp only
        refine ⟨⟨hnodes, htab, ?_, hharr, hhs, hn1⟩, rfl, rfl, rfl, rfl⟩
        intro m2 hm2
        have hm3 : m2 = ⟨nid, nx, ny, gs⟩ ∨ m2 ∈ st.queue := by
          simpa using hm2
        rcases hm3 with hm3 | hm3
        · rw [hm3]; exact hmsg hw
        · exact hq m2 hm3
    | some oid =>
        dsimp only
        by_cases himp : gs < (st.store oid).gs
        · rw [if_pos himp]
          refine ⟨⟨hnodes, htab, ?_, hharr, hhs, hn1⟩, rfl, rfl, rfl, rfl⟩
          intro m2 hm2
          have hm3 : m2 = ⟨nid, nx, ny, gs⟩ ∨ m2 ∈ st.queue := by
            simpa using hm2
          rcases hm3 with hm3 | hm3
          · rw [hm3]; exact hmsg hw
          · exact hq m2 hm3
        · rw [if_neg himp]
          exact ⟨⟨hnodes, htab, hq, hharr, hhs, hn1⟩, rfl, rfl, rfl, rfl⟩
  · rw [if_neg hw]
    exact ⟨⟨hnodes, htab, hq, hharr, hhs, hn1⟩, rfl, rfl, rfl, rfl⟩

/-- The expansion of a node that carries a realizable walk preserves the
direction invariant: every pushed message carries the walk extended by one
step to an open neighbor. -/
theorem expand_OK {f : GridFile} {cfg : DirCfg} (st : DirSt) (nid : Nat)
    (hb : BorderWalls f) (hok : DirOK f cfg st) (k : Nat)
    (hopen : openCell f (st.store nid).x (st.store nid).y)
    (hgs : (st.store nid).gs = (k : Int) + 1)
    (hw : Walk f cfg.sx cfg.sy (st.store nid).x (st.store nid).y k) :
    DirOK f cfg (expand f st nid) := by
  have hint := open_interior hb hopen
  have hmsg : ∀ nx ny : Int,
      adjacent (st.store nid).x (st.store nid).y nx ny →
      f.line nx ny ≠ '#' → MsgOK f cfg ⟨nid, nx, ny, (st.store nid).gs + 1⟩ := by
    intro nx ny hadj hnw
    have hib : inB f nx ny := interior_nbr_inB hint hadj
    have hoc : openCell f nx ny := ⟨hib, hnw⟩
    refine ⟨hoc, k + 1, by push_cast; omega, ?_⟩
    exact Walk.step nx ny hw hadj hoc
  unfold expand
  have hadj1 : adjacent (st.store nid).x (st.store nid).y
      ((st.store nid).x + 1) (st.store nid).y := by
    unfold adjacent; omega
  have hadj2 : adjacent (st.store nid).x (st.store nid).y
      ((st.store nid).x - 1) (st.store nid).y := by
    unfold adjacent; omega
  have hadj3 : adjacent (st.store nid).x (st.store nid).y
      (st.store nid).x ((st.store nid).y + 1) := by
    unfold adjacent; omega
  have hadj4 : adjacent (st.store nid).x (st.store nid).y
      (st.store nid).x ((st.store nid).y - 1) := by
    unfold adjacent; omega
  have h1 := openNbr_OK st nid ((st.store nid).gs + 1)
    ((st.store nid).x + 1) (st.store nid).y hok (hmsg _ _ hadj1)
  have h2 := openNbr_OK _ nid ((st.store nid).gs + 1)
    ((st.store nid).x - 1) (st.store nid).y h1.1 (hmsg _ _ hadj2)
  have h3 := openNbr_OK _ nid ((st.store nid).gs + 1)
    (st.store nid).x ((st.store nid).y + 1) h2.1 (hmsg _ _ hadj3)
  have h4 := openNbr_OK _ nid ((st.store nid).gs + 1)
    (st.store nid).x ((st.store nid).y - 1) h3.1 (hmsg _ _ hadj4)
  exact h4.1

/-- One worker iteration preserves the direction and shared invariants; the
finished flag can only be set when it was already set or a meeting was
already recorded, and min_len never increases. -/
theorem workerIter_OK {f : GridFile} {cfgMe cfgOther : DirCfg}
    (me other : DirSt) (sh : Shared) (hb : BorderWalls f)
    (hme : DirOK f cfgMe me) (hother : DirOK f cfgOther other)
    (hsh : SharedOKg f cfgMe cfgOther sh) :
    DirOK f cfgMe (workerIter f cfgMe me other sh).1 ∧
    SharedOKg f cfgMe cfgOther (workerIter f cfgMe me other sh).2 ∧
    ((workerIter f cfgMe me other sh).2.finished = true →
      sh.finished = true ∨ sh.min_len < INTMAX) ∧
    (workerIter f cfgMe me other sh).2.min_len ≤ sh.min_len := by
  obtain ⟨hnodes, htab, hq, hharr, hhs, hn1⟩ := hme
  have hmlle : sh.min_len ≤ INTMAX := by
    rcases hsh with h | ⟨hlt, _⟩
    · omega
    · omega
  unfold workerIter
  by_cases hne : 1 < me.heap.hsize
  · rw [if_pos hne]
    dsimp only
    have hnid : (heap_extract me.store me.heap).1 < me.nextId := hharr 1
    have hcoreE := heap_extract_core me.store me.heap
    have harrE := heap_extract_arr_closed (fun w => w < me.nextId)
      me.store me.heap hharr
    have hnOK : NodeOK f cfgMe
        ((heap_extract me.store me.heap).2.1 (heap_extract me.store me.heap).1) :=
      NodeOK_core (hcoreE _).1 (hcoreE _).2.1 (hcoreE _).2.2.1 (hcoreE _).2.2.2
        (hnodes _ hnid)
    have hnodesE : ∀ id, id < me.nextId →
        NodeOK f cfgMe ((heap_extract me.store me.heap).2.1 id) := by
      intro id hid
      exact NodeOK_core (hcoreE id).1 (hcoreE id).2.1 (hcoreE id).2.2.1
        (hcoreE id).2.2.2 (hnodes id hid)
    have htabE : ∀ x y id, me.table (x, y) = some id →
        id < me.nextId ∧ ((heap_extract me.store me.heap).2.1 id).x = x ∧
        ((heap_extract me.store me.heap).2.1 id).y = y := by
      intro x y id hbind
      have hbo := htab x y id hbind
      exact ⟨hbo.1, by rw [(hcoreE id).1]; exact hbo.2.1,
        by rw [(hcoreE id).2.1]; exact hbo.2.2⟩
    by_cases hpr : sh.min_len ≤
        ((heap_extract me.store me.heap).2.1 (heap_extract me.store me.heap).1).gs
    · rw [if_pos hpr]
      refine ⟨⟨hnodesE, htabE, hq, ?_, by show (1:Nat) ≤ 1; omega, hn1⟩,
        hsh, ?_, le_refl _⟩
      · intro i
        exact harrE i
      · intro hfin
        exact Or.inl hfin
    · rw [if_neg hpr]
      have hglt : ((heap_extract me.store me.heap).2.1
          (heap_extract me.store me.heap).1).gs < INTMAX := by omega
      obtain ⟨hno, hg1, hcase⟩ := hnOK
      have hkcase : ∃ k : Nat,
          ((heap_extract me.store me.heap).2.1 (heap_extract me.store me.heap).1).gs
            = (k : Int) + 1 ∧
          Walk f cfgMe.sx cfgMe.sy
            ((heap_extract me.store me.heap).2.1 (heap_extract me.store me.heap).1).x
            ((heap_extract me.store me.heap).2.1 (heap_extract me.store me.heap).1).y
            k := by
        rcases hcase with ⟨hgi, _⟩ | ⟨k, hk, _, hw, _⟩
        · omega
        · exact ⟨k, hk, hw⟩
      obtain ⟨k, hkgs, hkw⟩ := hkcase
      cases hbind2 : other.table
          (((heap_extract me.store me.heap).2.1 (heap_extract me.store me.heap).1).x,
           ((heap_extract me.store me.heap).2.1 (heap_extract me.store me.heap).1).y) with
      | some oid =>
          dsimp only
          have hbo := hother.2.1 _ _ oid hbind2
          have hmOK := hother.1 oid hbo.1
          have hshnew : SharedOKg f cfgMe cfgOther
              (if ((heap_extract me.store me.heap).2.1 (heap_extract me.store me.heap).1).gs
                  + (other.store oid).gs < sh.min_len then
                { sh with
                  min_len := ((heap_extract me.store me.heap).2.1
                    (heap_extract me.store me.heap).1).gs + (other.store oid).gs
                  rx := ((heap_extract me.store me.heap).2.1
                    (heap_extract me.store me.heap).1).x
                  ry := ((heap_extract me.store me.heap).2.1
                    (heap_extract me.store me.heap).1).y }
              else sh) := by
            by_cases hless : ((heap_extract me.store me.heap).2.1
                (heap_extract me.store me.heap).1).gs + (other.store oid).gs < sh.min_len
            · rw [if_pos hless]
              obtain ⟨hmo2, hmg1, hmcase⟩ := hmOK
              rcases hmcase with ⟨hgi, _⟩ | ⟨kb, hkb, hkblt, hwb, _⟩
              · exact absurd hless (by omega)
              · refine Or.inr ⟨by show _ < INTMAX; dsimp only; omega,
                  ((heap_extract me.store me.heap).2.1 (heap_extract me.store me.heap).1).x,
                  ((heap_extract me.store me.heap).2.1 (heap_extract me.store me.heap).1).y,
                  k, kb, hkw, ?_, by show _ = (k : Int) + (kb : Int) + 2; dsimp only; omega⟩
                have hwb2 := hwb
                rw [hbo.2.1, hbo.2.2] at hwb2
                exact hwb2
            · rw [if_neg hless]
              exact hsh
          refine ⟨drainQueue_OK _ ⟨hnodesE, htabE, hq, harrE, ?_, hn1⟩, hshnew, ?_, ?_⟩
          · show 1 ≤ me.heap.hsize - 1
            omega
          · intro hfin
            by_cases hless : ((heap_extract me.store me.heap).2.1
                (heap_extract me.store me.heap).1).gs + (other.store oid).gs < sh.min_len
            · rw [if_pos hless] at hfin
              exact Or.inl hfin
            · rw [if_neg hless] at hfin
              exact Or.inl hfin
          · by_cases hless : ((heap_extract me.store me.heap).2.1
                (heap_extract me.store me.heap).1).gs + (other.store oid).gs < sh.min_len
            · rw [if_pos hless]
              show _ ≤ sh.min_len
              dsimp only
              omega
            · rw [if_neg hless]
      | none =>
          dsimp only
          have hexp := expand_OK
            { me with
                store := (heap_extract me.store me.heap).2.1
                heap := (heap_extract me.store me.heap).2.2 }
            (heap_extract me.store me.heap).1 hb
            ⟨hnodesE, htabE, hq, harrE, by show 1 ≤ me.heap.hsize - 1; omega, hn1⟩
            k hno hkgs hkw
          refine ⟨drainQueue_OK _ hexp, hsh, fun hfin => Or.inl hfin, le_refl _⟩
  · rw [if_neg hne]
    by_cases hqe : me.queue.isEmpty
    · rw [if_pos hqe]
      by_cases hcond : sh.finished = true ∨ sh.min_len < INTMAX ∧ me.sent = me.received
      · rw [if_pos hcond]
        refine ⟨⟨hnodes, htab, hq, hharr, hhs, hn1⟩, ?_, ?_, le_refl _⟩
        · rcases hsh with h | h
          · exact Or.inl h
          · exact Or.inr h
        · intro _
          rcases hcond with h | h
          · exact Or.inl h
          · exact Or.inr h.1
      · rw [if_neg hcond]
        exact ⟨⟨hnodes, htab, hq, hharr, hhs, hn1⟩, hsh,
          fun hfin => Or.inl hfin, le_refl _⟩
    · rw [if_neg hqe]
      exact ⟨drainQueue_OK _ ⟨hnodes, htab, hq, hharr, hhs, hn1⟩, hsh,
        fun hfin => Or.inl hfin, le_refl _⟩

/-- The initial direction state satisfies the invariant provided the
start cell is open. -/
theorem dirInit_OK {f : GridFile} {cfg : DirCfg}
    (hs : openCell f cfg.sx cfg.sy) : DirOK f cfg (dirInit cfg) := by
  have hcore := heap_insert_core
    (updMap (fun _ => node_init 0 0) 0
      { node_init cfg.sx cfg.sy with
          gs := 1
          fs := 1 + heuristic (node_init cfg.sx cfg.sy) (goalNode cfg) })
    emptyHeap 0
  refine ⟨?_, ?_, ?_, ?_, ?_, ?_⟩
  · intro id hid
    have hid1 : id < 1 := hid
    have hid0 : id = 0 := by omega
    subst hid0
    refine NodeOK_core (hcore 0).1 (hcore 0).2.1 (hcore 0).2.2.1 (hcore 0).2.2.2 ?_
    rw [updMap_same]
    refine ⟨hs, le_refl 1, Or.inr ⟨0, by norm_num, ?_, Walk.base hs, rfl⟩⟩
    show (1 : Int) < INTMAX
    unfold INTMAX
    omega
  · intro x y id hbind
    have hbind2 : updMap (fun _ => none) (cfg.sx, cfg.sy) (some 0) (x, y)
        = some id := hbind
    by_cases hxy : ((x, y) : Int × Int) = (cfg.sx, cfg.sy)
    · rw [hxy, updMap_same] at hbind2
      have hid0 : id = 0 := by
        injection hbind2 with h
        omega
      subst hid0
      have hx : x = cfg.sx := congrArg Prod.fst hxy
      have hy : y = cfg.sy := congrArg Prod.snd hxy
      refine ⟨by show (0:Nat) < 1; omega, ?_, ?_⟩
      · show ((heap_insert _ emptyHeap 0).1 0).x = x
        rw [(hcore 0).1, updMap_same]
        show cfg.sx = x
        rw [hx]
      · show ((heap_insert _ emptyHeap 0).1 0).y = y
        rw [(hcore 0).2.1, updMap_same]
        show cfg.sy = y
        rw [hy]
    · rw [updMap_other _ _ _ _ hxy] at hbind2
      exact absurd hbind2 (by simp)
  · intro m hm
    have hm2 : m ∈ ([] : List Msg) := hm
    exact absurd hm2 (by simp)
  · intro i
    exact heap_insert_arr_closed (fun w => w < 1) _ emptyHeap 0
      (fun _ => by show (0:Nat) < 1; omega) (by show (0:Nat) < 1; omega) i
  · show (1:Nat) ≤ emptyHeap.hsize + 1
    show (1:Nat) ≤ 1 + 1
    omega
  · exact le_refl 1

/-- The initial system state satisfies the whole-system invariant. -/
theorem sysInit_OK {f : GridFile}
    (h1 : openCell f (cfgFw f).sx (cfgFw f).sy)
    (h2 : openCell f (cfgBw f).sx (cfgBw f).sy) : SysOK f (sysInit f) :=
  ⟨dirInit_OK h1, dirInit_OK h2, Or.inl rfl⟩

/-- A forward-worker step preserves the system invariant; it can set the
finished flag only if it was set or a meeting was already recorded, and
min_len never increases. -/
theorem stepFw_OK {f : GridFile} {s : Sys} (hb : BorderWalls f)
    (h : SysOK f s) :
    SysOK f (stepFw f s) ∧
    ((stepFw f s).sh.finished = true →
      s.sh.finished = true ∨ s.sh.min_len < INTMAX) ∧
    (stepFw f s).sh.min_len ≤ s.sh.min_len := by
  obtain ⟨hfw, hbw, hsh⟩ := h
  unfold stepFw
  by_cases hfin : s.sh.finished
  · rw [if_pos hfin]
    exact ⟨⟨hfw, hbw, hsh⟩, fun _ => Or.inl hfin, le_refl _⟩
  · rw [if_neg hfin]
    have hw := workerIter_OK s.fw s.bw s.sh hb hfw hbw hsh
    exact ⟨⟨hw.1, hbw, hw.2.1⟩, hw.2.2.1, hw.2.2.2⟩

/-- A backward-worker step preserves the system invariant, with the same
finished-flag and min_len guarantees. -/
theorem stepBw_OK {f : GridFile} {s : Sys} (hb : BorderWalls f)
    (h : SysOK f s) :
    SysOK f (stepBw f s) ∧
    ((stepBw f s).sh.finished = true →
      s.sh.finished = true ∨ s.sh.min_len < INTMAX) ∧
    (stepBw f s).sh.min_len ≤ s.sh.min_len := by
  obtain ⟨hfw, hbw, hsh⟩ := h
  unfold stepBw
  by_cases hfin : s.sh.finished
  · rw [if_pos hfin]
    exact ⟨⟨hfw, hbw, hsh⟩, fun _ => Or.inl hfin, le_refl _⟩
  · rw [if_neg hfin]
    have hw := workerIter_OK s.bw s.fw s.sh hb hbw hfw (SharedOKg_swap hsh)
    exact ⟨⟨hfw, hw.1, SharedOKg_swap hw.2.1⟩, hw.2.2.1, hw.2.2.2⟩

/-- A full round preserves the system invariant and never increases
min_len. -/
theorem sysRound_OK {f : GridFile} {s : Sys} (hb : BorderWalls f)
    (h : SysOK f s) :
    SysOK f (sysRound f s) ∧ (sysRound f s).sh.min_len ≤ s.sh.min_len := by
  have h1 := stepFw_OK hb h
  have h2 := stepBw_OK hb h1.1
  exact ⟨h2.1, le_trans h2.2.2 h1.2.2⟩

/-- The system invariant holds after any number of rounds. -/
theorem runSys_OK {f : GridFile} (hb : BorderWalls f)
    (h1 : openCell f (cfgFw f).sx (cfgFw f).sy)
    (h2 : openCell f (cfgBw f).sx (cfgBw f).sy) (n : Nat) :
    SysOK f (runSys f n) := by
  induction n with
  | zero => exact sysInit_OK h1 h2
  | succ n ih => exact (sysRound_OK hb ih).1

/-- If no cell is reachable by open-cell walks from both starts, the
shared record still holds INT_MAX. -/
theorem unsolvable_minlen {f : GridFile}
    (hun : ¬ ∃ (px py : Int) (a b : Nat),
      Walk f (cfgFw f).sx (cfgFw f).sy px py a ∧
      Walk f (cfgBw f).sx (cfgBw f).sy px py b)
    {sh : Shared} (h : SharedOKg f (cfgFw f) (cfgBw f) sh) :
    sh.min_len = INTMAX := by
  rcases h with h | ⟨hlt, px, py, a, b, hw1, hw2, he⟩
  · exact h
  · exact absurd ⟨px, py, a, b, hw1, hw2⟩ hun

/-- When no meeting cell exists, every round leaves finished = false and
min_len = INT_MAX: the termination detector never fires. -/
theorem runSys_unsolvable {f : GridFile} (hb : BorderWalls f)
    (h1 : openCell f (cfgFw f).sx (cfgFw f).sy)
    (h2 : openCell f (cfgBw f).sx (cfgBw f).sy)
    (hun : ¬ ∃ (px py : Int) (a b : Nat),
      Walk f (cfgFw f).sx (cfgFw f).sy px py a ∧
      Walk f (cfgBw f).sx (cfgBw f).sy px py b) (n : Nat) :
    (runSys f n).sh.finished = false ∧ (runSys f n).sh.min_len = INTMAX := by
  induction n with
  | zero => exact ⟨rfl, rfl⟩
  | succ n ih =>
    have hOK := runSys_OK hb h1 h2 n
    have hsf := stepFw_OK hb hOK
    have hm1 : (stepFw f (runSys f n)).sh.min_len = INTMAX :=
      unsolvable_minlen hun hsf.1.2.2
    have hf1 : (stepFw f (runSys f n)).sh.finished = false := by
      cases hfb : (stepFw f (runSys f n)).sh.finished
      · rfl
      · rcases hsf.2.1 hfb with hc | hc
        · rw [ih.1] at hc
          exact absurd hc Bool.false_ne_true
        · rw [ih.2] at hc
          exact absurd hc (lt_irrefl _)
    have hsb := stepBw_OK hb hsf.1
    refine ⟨?_, unsolvable_minlen hun ((sysRound_OK hb hOK).1).2.2⟩
    show (stepBw f (stepFw f (runSys f n))).sh.finished = false
    cases hfb : (stepBw f (stepFw f (runSys f n))).sh.finished
    · rfl
    · rcases hsb.2.1 hfb with hc | hc
      · rw [hf1] at hc
        exact absurd hc Bool.false_ne_true
      · rw [hm1] at hc
        exact absurd hc (lt_irrefl _)

/-- A walk starting at a cell all of whose neighbours are blocked never
leaves that cell. -/
theorem walk_isolated {f : GridFile} {sx sy : Int}
    (hiso : ∀ x2 y2, adjacent sx sy x2 y2 → ¬ openCell f x2 y2)
    {x y : Int} {n : Nat} (w : Walk f sx sy x y n) : x = sx ∧ y = sy := by
  induction w with
  | base _ => exact ⟨rfl, rfl⟩
  | step x2 y2 w hadj hopen ih =>
      obtain ⟨hx, hy⟩ := ih
      rw [hx, hy] at hadj
      exact absurd hopen (hiso x2 y2 hadj)

/-- A 5x5 maze whose only open cells are (1,1) and (3,3): the two starts
are isolated from each other. -/
def blockedFile : GridFile :=
  ⟨5, 5, fun x y => if (x = 1 ∧ y = 1) ∨ (x = 3 ∧ y = 3) then '.' else '#'⟩

theorem blockedFile_border : BorderWalls blockedFile := by
  intro x y hin hb
  have hin2 : 0 ≤ x ∧ x < 5 ∧ 0 ≤ y ∧ y < 5 := hin
  have hb2 : x = 0 ∨ x = 5 - 1 ∨ y = 0 ∨ y = 5 - 1 := hb
  show (if (x = 1 ∧ y = 1) ∨ (x = 3 ∧ y = 3) then '.' else '#') = '#'
  rw [if_neg]
  rintro (⟨hx, hy⟩ | ⟨hx, hy⟩) <;> omega

theorem blockedFile_openF : openCell blockedFile (cfgFw blockedFile).sx
    (cfgFw blockedFile).sy := by
  refine ⟨⟨?_, ?_, ?_, ?_⟩, ?_⟩
  · show (0:Int) ≤ 1
    omega
  · show (1:Int) < 5
    omega
  · show (0:Int) ≤ 1
    omega
  · show (1:Int) < 5
    omega
  · show (if ((1:Int) = 1 ∧ (1:Int) = 1) ∨ ((1:Int) = 3 ∧ (1:Int) = 3)
        then '.' else '#') ≠ '#'
    rw [if_pos (Or.inl ⟨rfl, rfl⟩)]
    decide

theorem blockedFile_openB : openCell blockedFile (cfgBw blockedFile).sx
    (cfgBw blockedFile).sy := by
  refine ⟨⟨?_, ?_, ?_, ?_⟩, ?_⟩
  · show (0:Int) ≤ 3
    omega
  · show (3:Int) < 5
    omega
  · show (0:Int) ≤ 3
    omega
  · show (3:Int) < 5
    omega
  · show (if ((3:Int) = 1 ∧ (3:Int) = 1) ∨ ((3:Int) = 3 ∧ (3:Int) = 3)
        then '.' else '#') ≠ '#'
    rw [if_pos (Or.inr ⟨rfl, rfl⟩)]
    decide

theorem blockedFile_unsolvable :
    ¬ ∃ (px py : Int) (a b : Nat),
      Walk blockedFile (cfgFw blockedFile).sx (cfgFw blockedFile).sy px py a ∧
      Walk blockedFile (cfgBw blockedFile).sx (cfgBw blockedFile).sy px py b := by
  rintro ⟨px, py, a, b, hw1, hw2⟩
  have hw1b : Walk blockedFile 1 1 px py a := hw1
  have hw2b : Walk blockedFile 3 3 px py b := hw2
  have hisoF : ∀ x2 y2, adjacent 1 1 x2 y2 → ¬ openCell blockedFile x2 y2 := by
    intro x2 y2 hadj hopen
    have hadj2 : (x2 - 1).natAbs + (y2 - 1).natAbs = 1 := hadj
    obtain ⟨hin, hne⟩ := hopen
    have hcases : (x2 = 0 ∧ y2 = 1) ∨ (x2 = 2 ∧ y2 = 1) ∨
        (x2 = 1 ∧ y2 = 0) ∨ (x2 = 1 ∧ y2 = 2) := by omega
    have hne2 : (if (x2 = 1 ∧ y2 = 1) ∨ (x2 = 3 ∧ y2 = 3)
        then '.' else '#') ≠ '#' := hne
    rw [if_neg] at hne2
    · exact hne2 rfl
    · rintro (⟨h1, h2⟩ | ⟨h1, h2⟩) <;> omega
  have hisoB : ∀ x2 y2, adjacent 3 3 x2 y2 → ¬ openCell blockedFile x2 y2 := by
    intro x2 y2 hadj hopen
    have hadj2 : (x2 - 3).natAbs + (y2 - 3).natAbs = 1 := hadj
    obtain ⟨hin, hne⟩ := hopen
    have hne2 : (if (x2 = 1 ∧ y2 = 1) ∨ (x2 = 3 ∧ y2 = 3)
        then '.' else '#') ≠ '#' := hne
    rw [if_neg] at hne2
    · exact hne2 rfl
    · rintro (⟨h1, h2⟩ | ⟨h1, h2⟩) <;> omega
  obtain ⟨hpx1, hpy1⟩ := walk_isolated hisoF hw1b
  obtain ⟨hpx3, hpy3⟩ := walk_isolated hisoB hw2b
  omega

/-- C9: a worker never sets the termination flag while min_len is still
INT_MAX — the flag is only raised when it was already set or min_len <
INT_MAX and the worker's sent counter equals its received counter
(main.c lines 262-276); consequently on an unsolvable maze the flag stays
down and min_len stays INT_MAX forever. -/
theorem claim_C9_unsolvable_spins :
    (∀ (f : GridFile) (cfg : DirCfg) (me other : DirSt) (sh : Shared),
      sh.finished = false →
      (workerIter f cfg me other sh).2.finished = true →
      sh.min_len < INTMAX ∧ me.sent = me.received) ∧
    (∀ f : GridFile, BorderWalls f →
      openCell f (cfgFw f).sx (cfgFw f).sy →
      openCell f (cfgBw f).sx (cfgBw f).sy →
      (¬ ∃ (px py : Int) (a b : Nat),
        Walk f (cfgFw f).sx (cfgFw f).sy px py a ∧
        Walk f (cfgBw f).sx (cfgBw f).sy px py b) →
      ∀ n : Nat, (runSys f n).sh.finished = false ∧
        (runSys f n).sh.min_len = INTMAX) := by
  constructor
  · intro f cfg me other sh hold hset
    unfold workerIter at hset
    by_cases hne : 1 < me.heap.hsize
    · rw [if_pos hne] at hset
      dsimp only at hset
      by_cases hpr : sh.min_len ≤
          ((heap_extract me.store me.heap).2.1 (heap_extract me.store me.heap).1).gs
      · rw [if_pos hpr] at hset
        have h2 : sh.finished = true := hset
        rw [hold] at h2
        exact absurd h2 Bool.false_ne_true
      · rw [if_neg hpr] at hset
        cases hbind : other.table
            (((heap_extract me.store me.heap).2.1 (heap_extract me.store me.heap).1).x,
             ((heap_extract me.store me.heap).2.1 (heap_extract me.store me.heap).1).y) with
        | some oid =>
            rw [hbind] at hset
            dsimp only at hset
            by_cases hless : ((heap_extract me.store me.heap).2.1
                (heap_extract me.store me.heap).1).gs + (other.store oid).gs < sh.min_len
            · rw [if_pos hless] at hset
              have h2 : sh.finished = true := hset
              rw [hold] at h2
              exact absurd h2 Bool.false_ne_true
            · rw [if_neg hless] at hset
              have h2 : sh.finished = true := hset
              rw [hold] at h2
              exact absurd h2 Bool.false_ne_true
        | none =>
            rw [hbind] at hset
            dsimp only at hset
            have h2 : sh.finished = true := hset
            rw [hold] at h2
            exact absurd h2 Bool.false_ne_true
    · rw [if_neg hne] at hset
      by_cases hqe : me.queue.isEmpty
      · rw [if_pos hqe] at hset
        by_cases hcond : sh.finished = true ∨
            sh.min_len < INTMAX ∧ me.sent = me.received
        · rcases hcond with hf | hc
          · rw [hold] at hf
            exact absurd hf Bool.false_ne_true
          · exact hc
        · rw [if_neg hcond] at hset
          have h2 : sh.finished = true := hset
          rw [hold] at h2
          exact absurd h2 Bool.false_ne_true
      · rw [if_neg hqe] at hset
        have h2 : sh.finished = true := hset
        rw [hold] at h2
        exact absurd h2 Bool.false_ne_true
  · intro f hb h1 h2 hun n
    exact runSys_unsolvable hb h1 h2 hun n

/-- An idle single-worker state used to exercise the termination
detector: empty heap, empty queue, balanced counters. -/
def meEx9 : DirSt :=
  { store := fun _ => node_init 0 0, nextId := 1, table := fun _ => none,
    heap := emptyHeap, queue := [], sent := 2, received := 2 }

/-- A shared record with a recorded meeting (min_len already below
INT_MAX) and the flag still down. -/
def shEx9 : Shared := { rx := 2, ry := 2, min_len := 5, finished := false }

theorem claim_C9_witness :
    (shEx9.min_len < INTMAX ∧ meEx9.sent = meEx9.received) ∧
    ((runSys blockedFile 3).sh.finished = false ∧
     (runSys blockedFile 3).sh.min_len = INTMAX) :=
  ⟨claim_C9_unsolvable_spins.1 blockedFile (cfgFw blockedFile) meEx9 meEx9 shEx9
      rfl (by decide),
   claim_C9_unsolvable_spins.2 blockedFile blockedFile_border blockedFile_openF
      blockedFile_openB blockedFile_unsolvable 3⟩

/-! ### C3: thread counts and the hash distribution -/

/-- Workers per direction (main.c line 387: thread_num = get_nprocs(),
lines 420-421: each direction receives thread_num / 2, with no clamping). -/
def workersPerDirection (nprocs : Nat) : Nat := nprocs / 2

/-- hash_distribute from main.c line 52: ((x) + (y)) % num on unsigned
coordinates. -/
def hash_distribute (num x y : Nat) : Nat := (x + y) % num

/-- C3 counterexample: with one reported CPU each direction gets zero
workers — there is no clamping to a minimum of one. -/
theorem claim_C3_counterexample :
    workersPerDirection 1 = 0 ∧ ¬ 1 ≤ workersPerDirection 1 := by decide

/-- C3 (amended): each direction receives exactly nprocs / 2 workers with
no minimum clamp (0 workers when nprocs = 1); at least one worker per
direction requires nprocs ≥ 2, and with one worker the hash distribution
(x + y) mod 1 routes every cell to worker 0. -/
theorem claim_C3_amended :
    (∀ n : Nat, workersPerDirection n = n / 2) ∧
    workersPerDirection 1 = 0 ∧
    (∀ n : Nat, 2 ≤ n → 1 ≤ workersPerDirection n) ∧
    (∀ x y : Nat, hash_distribute 1 x y = 0) := by
  refine ⟨fun n => rfl, rfl, fun n hn => ?_, fun x y => ?_⟩
  · unfold workersPerDirection
    omega
  · unfold hash_distribute
    omega

theorem claim_C3_witness :
    1 ≤ workersPerDirection 2 ∧ hash_distribute 1 3 4 = 0 :=
  ⟨claim_C3_amended.2.2.1 2 (by decide), claim_C3_amended.2.2.2 3 4⟩

/-! ### C4: the f = g + h invariant and the direction goals -/

/-- C4 counterexample: the forward direction's goal cell is
(cols - 1, rows - 2), not (cols - 2, rows - 2), and the backward goal is
(0, 1), not (1, 1) (main.c lines 397-398); on the 5x5 maze the initial
forward f-score is 1 + h((1,1),(4,3)) = 6, not 1 + h((1,1),(3,3)) = 5. -/
theorem claim_C4_counterexample :
    ((cfgFw blockedFile).gx, (cfgFw blockedFile).gy) = (4, 3) ∧
    (blockedFile.cols - 2, blockedFile.rows - 2) = (3, 3) ∧
    ((cfgFw blockedFile).gx, (cfgFw blockedFile).gy) ≠
      (blockedFile.cols - 2, blockedFile.rows - 2) ∧
    ((cfgBw blockedFile).gx, (cfgBw blockedFile).gy) = (0, 1) ∧
    ((cfgBw blockedFile).gx, (cfgBw blockedFile).gy) ≠ ((1 : Int), (1 : Int)) ∧
    ((dirInit (cfgFw blockedFile)).store 0).fs = 6 ∧
    1 + heuristic (node_init 1 1) (node_init 3 3) = 5 := by decide

/-- C4 (amended): the forward goal is (cols - 1, rows - 2) and the
backward goal is (0, 1) (main.c lines 397-398); every allocated node of
either direction satisfies f = g + h((x,y), that direction's goal) except
the still-infinite nodes, which hold f = g = INT_MAX. -/
theorem claim_C4_amended (f : GridFile) (hb : BorderWalls f)
    (h1 : openCell f (cfgFw f).sx (cfgFw f).sy)
    (h2 : openCell f (cfgBw f).sx (cfgBw f).sy) (n : Nat) :
    cfgFw f = ⟨1, 1, f.cols - 1, f.rows - 2⟩ ∧
    cfgBw f = ⟨f.cols - 2, f.rows - 2, 0, 1⟩ ∧
    (∀ id, id < (runSys f n).fw.nextId →
      (((runSys f n).fw.store id).gs = INTMAX ∧
        ((runSys f n).fw.store id).fs = INTMAX) ∨
      ((runSys f n).fw.store id).fs =
        ((runSys f n).fw.store id).gs +
          heuristic ((runSys f n).fw.store id) (goalNode (cfgFw f))) ∧
    (∀ id, id < (runSys f n).bw.nextId →
      (((runSys f n).bw.store id).gs = INTMAX ∧
        ((runSys f n).bw.store id).fs = INTMAX) ∨
      ((runSys f n).bw.store id).fs =
        ((runSys f n).bw.store id).gs +
          heuristic ((runSys f n).bw.store id) (goalNode (cfgBw f))) := by
  have hOK := runSys_OK hb h1 h2 n
  refine ⟨rfl, rfl, ?_, ?_⟩
  · intro id hid
    obtain ⟨_, _, hcase⟩ := hOK.1.1 id hid
    rcases hcase with ⟨hg, hf⟩ | ⟨k, _, _, _, hfs⟩
    · exact Or.inl ⟨hg, hf⟩
    · exact Or.inr hfs
  · intro id hid
    obtain ⟨_, _, hcase⟩ := hOK.2.1.1 id hid
    rcases hcase with ⟨hg, hf⟩ | ⟨k, _, _, _, hfs⟩
    · exact Or.inl ⟨hg, hf⟩
    · exact Or.inr hfs

theorem claim_C4_witness :
    cfgFw blockedFile = ⟨1, 1, blockedFile.cols - 1, blockedFile.rows - 2⟩ ∧
    cfgBw blockedFile = ⟨blockedFile.cols - 2, blockedFile.rows - 2, 0, 1⟩ ∧
    (∀ id, id < (runSys blockedFile 1).fw.nextId →
      (((runSys blockedFile 1).fw.store id).gs = INTMAX ∧
        ((runSys blockedFile 1).fw.store id).fs = INTMAX) ∨
      ((runSys blockedFile 1).fw.store id).fs =
        ((runSys blockedFile 1).fw.store id).gs +
          heuristic ((runSys blockedFile 1).fw.store id)
            (goalNode (cfgFw blockedFile))) ∧
    (∀ id, id < (runSys blockedFile 1).bw.nextId →
      (((runSys blockedFile 1).bw.store id).gs = INTMAX ∧
        ((runSys blockedFile 1).bw.store id).fs = INTMAX) ∨
      ((runSys blockedFile 1).bw.store id).fs =
        ((runSys blockedFile 1).bw.store id).gs +
          heuristic ((runSys blockedFile 1).bw.store id)
            (goalNode (cfgBw blockedFile))) :=
  claim_C4_amended blockedFile blockedFile_border blockedFile_openF
    blockedFile_openB 1

/-! ### C7: the prune counter -/

/-- A direction state with a three-node heap whose root g-score is large,
used to trigger the prune branch. -/
def meEx7 : DirSt :=
  { store :=
      updMap (updMap (updMap (fun _ => node_init 0 0)
        0 { node_init 1 1 with gs := 9, fs := 9, heap_id := 1 })
        1 { node_init 2 1 with gs := 9, fs := 10, heap_id := 2 })
        2 { node_init 3 1 with gs := 9, fs := 11, heap_id := 3 }
    nextId := 3
    table := fun _ => none
    heap := ⟨fun i => if i = 1 then 0 else if i = 2 then 1 else
      if i = 3 then 2 else 0, 4⟩
    queue := []
    sent := 3
    received := 0 }

/-- A shared record whose min_len is below the root's g-score. -/
def shEx7 : Shared := { rx := 2, ry := 2, min_len := 5, finished := false }

/-- C7 counterexample: extracting the root of a 3-node heap under prune
leaves 2 discarded remaining nodes but adds 3 (= discarded + 1) to the
received counter — heap->size is read after extract-min already
decremented it, so the extracted node itself is counted too. -/
theorem claim_C7_counterexample :
    meEx7.heap.hsize = 4 ∧
    shEx7.min_len ≤ (meEx7.store (meEx7.heap.harr 1)).gs ∧
    (workerIter blockedFile (cfgFw blockedFile) meEx7 meEx7 shEx7).1.received
      = 3 ∧
    meEx7.heap.hsize - 2 = 2 ∧ (3 : Nat) ≠ 2 ∧
    (workerIter blockedFile (cfgFw blockedFile) meEx7 meEx7 shEx7).1.heap.hsize
      = 1 := by decide

/-- C7 (amended): when the extracted node n has n.g ≥ min_len the worker
empties the heap (size back to 1) and adds heap.size as read after the
extract decrement — that is, the number of discarded remaining nodes plus
one for the extracted node n itself — to its received counter, leaving the
shared record untouched. -/
theorem claim_C7_amended (f : GridFile) (cfg : DirCfg) (me other : DirSt)
    (sh : Shared) (hne : 1 < me.heap.hsize)
    (hpr : sh.min_len ≤
      ((heap_extract me.store me.heap).2.1 (heap_extract me.store me.heap).1).gs) :
    (workerIter f cfg me other sh).1.heap.hsize = 1 ∧
    (workerIter f cfg me other sh).1.received =
      me.received + (me.heap.hsize - 2) + 1 ∧
    (workerIter f cfg me other sh).2 = sh := by
  unfold workerIter
  rw [if_pos hne]
  dsimp only
  rw [if_pos hpr]
  refine ⟨rfl, ?_, rfl⟩
  show me.received + (heap_extract me.store me.heap).2.2.hsize =
    me.received + (me.heap.hsize - 2) + 1
  rw [heap_extract_hsize]
  omega

/-! ### C1: min_len versus the shortest path -/

/-- The four grid neighbours of a cell. -/
def nbrList (c : Int × Int) : List (Int × Int) :=
  [(c.1 + 1, c.2), (c.1 - 1, c.2), (c.1, c.2 + 1), (c.1, c.2 - 1)]

/-- Boolean traversability used by the reference BFS: in bounds and not
a '#'. -/
def openCellB (f : GridFile) (x y : Int) : Bool :=
  decide (0 ≤ x) && decide (x < f.cols) && decide (0 ≤ y) &&
    decide (y < f.rows) && !(f.line x y == '#')

/-- Reference BFS frontier expansion, modelled from the spec's words
("a reference BFS from start to goal"): returns the number of edges of a
shortest path when the goal is reached within the fuel bound. -/
def bfsAux (f : GridFile) (goal : Int × Int) :
    Nat → List (Int × Int) → List (Int × Int) → Nat → Option Nat
  | 0, _, _, _ => none
  | fuel + 1, visited, frontier, d =>
      if goal ∈ frontier then some d
      else
        let next := ((frontier.flatMap nbrList).filter
          (fun c => openCellB f c.1 c.2 && !(visited.contains c))).dedup
        if next.isEmpty then none
        else bfsAux f goal fuel (visited ++ next) next (d + 1)

/-- Reference BFS shortest-path length in edges, modelled from the
spec's words; not part of the program. -/
def bfsLen (f : GridFile) (sx sy gx gy : Int) (fuel : Nat) : Option Nat :=
  if openCellB f sx sy then bfsAux f (gx, gy) fuel [(sx, sy)] [(sx, sy)] 0
  else none

/-- A 3-row, 5-column maze whose open cells are the corridor
(1,1)-(2,1)-(3,1): start and goal of the spec are its two ends. -/
def corridorFile : GridFile :=
  ⟨3, 5, fun x y => if y = 1 ∧ 1 ≤ x ∧ x ≤ 3 then '.' else '#'⟩

theorem corridorFile_border : BorderWalls corridorFile := by
  intro x y hin hb
  have hin2 : 0 ≤ x ∧ x < 5 ∧ 0 ≤ y ∧ y < 3 := hin
  have hb2 : x = 0 ∨ x = 5 - 1 ∨ y = 0 ∨ y = 3 - 1 := hb
  show (if y = 1 ∧ 1 ≤ x ∧ x ≤ 3 then '.' else '#') = '#'
  rw [if_neg]
  rintro ⟨hy, hx1, hx3⟩
  omega

theorem corridorFile_openF : openCell corridorFile (cfgFw corridorFile).sx
    (cfgFw corridorFile).sy := by
  refine ⟨⟨?_, ?_, ?_, ?_⟩, ?_⟩
  · show (0:Int) ≤ 1
    omega
  · show (1:Int) < 5
    omega
  · show (0:Int) ≤ 1
    omega
  · show (1:Int) < 3
    omega
  · show (if (1:Int) = 1 ∧ 1 ≤ (1:Int) ∧ (1:Int) ≤ 3 then '.' else '#') ≠ '#'
    rw [if_pos (by omega)]
    decide

theorem corridorFile_openB : openCell corridorFile (cfgBw corridorFile).sx
    (cfgBw corridorFile).sy := by
  refine ⟨⟨?_, ?_, ?_, ?_⟩, ?_⟩
  · show (0:Int) ≤ 3
    omega
  · show (3:Int) < 5
    omega
  · show (0:Int) ≤ 1
    omega
  · show (1:Int) < 3
    omega
  · show (if (1:Int) = 1 ∧ 1 ≤ (3:Int) ∧ (3:Int) ≤ 3 then '.' else '#') ≠ '#'
    rw [if_pos (by omega)]
    decide

/-- C1 counterexample: on the 3-cell corridor the search terminates with
min_len = 4, while a reference BFS from the spec's start (1,1) to its
goal (cols-2, rows-2) = (3,1) finds a shortest path of 2 edges (3 cells):
min_len matches neither measure of shortest-path length. Each direction
seeds its start with g = 1, so min_len = g_f + g_b counts both endpoints
in addition to the edges. -/
theorem claim_C1_counterexample :
    (runSys corridorFile 5).sh.finished = true ∧
    (runSys corridorFile 5).sh.min_len = 4 ∧
    bfsLen corridorFile 1 1 (corridorFile.cols - 2) (corridorFile.rows - 2) 20
      = some 2 ∧
    (4 : Int) ≠ 2 ∧ (4 : Int) ≠ 3 := by decide

/-- C1 (amended): whenever the shared best record has been set
(min_len < INT_MAX), min_len equals a + b + 2 where a and b are the
numbers of maze steps of realizable open-cell walks from the two
directions' start cells to a common meeting cell — two more than the
combined step count, because each direction initializes its start node
with g = 1. -/
theorem claim_C1_minlen (f : GridFile) (hb : BorderWalls f)
    (h1 : openCell f (cfgFw f).sx (cfgFw f).sy)
    (h2 : openCell f (cfgBw f).sx (cfgBw f).sy) (n : Nat)
    (hlt : (runSys f n).sh.min_len < INTMAX) :
    ∃ (px py : Int) (a b : Nat),
      Walk f (cfgFw f).sx (cfgFw f).sy px py a ∧
      Walk f (cfgBw f).sx (cfgBw f).sy px py b ∧
      (runSys f n).sh.min_len = (a : Int) + (b : Int) + 2 := by
  have hOK := runSys_OK hb h1 h2 n
  rcases hOK.2.2 with h | ⟨_, px, py, a, b, hw1, hw2, he⟩
  · rw [h] at hlt
    exact absurd hlt (lt_irrefl _)
  · exact ⟨px, py, a, b, hw1, hw2, he⟩

theorem claim_C1_witness :
    ∃ (px py : Int) (a b : Nat),
      Walk corridorFile (cfgFw corridorFile).sx (cfgFw corridorFile).sy px py a ∧
      Walk corridorFile (cfgBw corridorFile).sx (cfgBw corridorFile).sy px py b ∧
      (runSys corridorFile 5).sh.min_len = (a : Int) + (b : Int) + 2 :=
  claim_C1_minlen corridorFile corridorFile_border corridorFile_openF
    corridorFile_openB 5 (by decide)

/-! ### C2: the printed path and stdout -/

/-- One of the two print-back while loops (part_000 lines 565-575 and
main.c lines 434-439): follow the parent chain from a node, marking each
cell '*' and counting one per iteration. Returns the marked cells and the
number of iterations; fuel bounds the chain length (the C loop runs until
parent == NULL). -/
def printLoop (store : Store) : Nat → Option Nat → List (Int × Int) × Nat
  | _, none => ([], 0)
  | 0, some _ => ([], 0)
  | fuel + 1, some id =>
      let rest := printLoop store fuel (store id).parent
      (((store id).x, (store id).y) :: rest.1, rest.2 + 1)

/-- The print-back section of the part_000 main (lines 562-575): mark the
meeting cell, then both parent chains; count starts at 1 (line 507) and
increments once per chain cell. Returns (marked cells, count). -/
def hdaPrintBack (fwStore bwStore : Store) (fwMeet bwMeet : Nat)
    (mx my : Int) (fuel : Nat) : List (Int × Int) × Nat :=
  let fwr := printLoop fwStore fuel (fwStore fwMeet).parent
  let bwr := printLoop bwStore fuel (bwStore bwMeet).parent
  ((mx, my) :: (fwr.1 ++ bwr.1), 1 + fwr.2 + bwr.2)

/-- Stdout of the part_000 main on the success path: the single
printf("%ld\x0a", count) at line 576. -/
def hdaStdout (fwStore bwStore : Store) (fwMeet bwMeet : Nat)
    (mx my : Int) (fuel : Nat) : List Nat :=
  [(hdaPrintBack fwStore bwStore fwMeet bwMeet mx my fuel).2]

/-- The print-back section of src/main.c (lines 432-439): the same cells
are marked '*' in the mapped file, but no count is kept and nothing is
written to stdout (src/main.c contains no stdout write at all). -/
def mainPrintBack (fwStore bwStore : Store) (fwMeet bwMeet : Nat)
    (mx my : Int) (fuel : Nat) : List (Int × Int) × List Nat :=
  let fwr := printLoop fwStore fuel (fwStore fwMeet).parent
  let bwr := printLoop bwStore fuel (bwStore bwMeet).parent
  ((mx, my) :: (fwr.1 ++ bwr.1), [])

/-- Stdout of the src/main.c main on the success path. -/
def mainStdout (fwStore bwStore : Store) (fwMeet bwMeet : Nat)
    (mx my : Int) (fuel : Nat) : List Nat :=
  (mainPrintBack fwStore bwStore fwMeet bwMeet mx my fuel).2

/-- The count accumulated by a print loop equals the number of cells it
marks. -/
theorem printLoop_count (store : Store) :
    ∀ (fuel : Nat) (o : Option Nat),
      (printLoop store fuel o).2 = (printLoop store fuel o).1.length := by
  intro fuel
  induction fuel with
  | zero =>
      intro o
      cases o <;> rfl
  | succ fuel ih =>
      intro o
      cases o with
      | none => rfl
      | some id =>
          show (printLoop store fuel (store id).parent).2 + 1 =
            (printLoop store fuel (store id).parent).1.length + 1
          rw [ih]

/-- A store whose node 0 sits at (2,2) with no parent: the printed path
is the meeting cell alone. -/
def cstoreC2 : Store := fun _ => node_init 2 2

/-- C2 counterexample: on the same one-cell path the part_000 variant
prints exactly [1], but src/main.c prints nothing at all — its stdout is
empty, so "the program writes exactly one decimal integer" fails for the
src/main.c driver the claim cites. -/
theorem claim_C2_counterexample :
    hdaStdout cstoreC2 cstoreC2 0 0 2 2 5 = [1] ∧
    mainStdout cstoreC2 cstoreC2 0 0 2 2 5 = [] ∧
    ([] : List Nat) ≠ [1] := by decide

/-- C2 (amended): the part_000 variant writes exactly one decimal
integer, equal to the number of cells marked on the printed path
including the meeting point; the src/main.c variant marks the same cells
but writes nothing to stdout. -/
theorem claim_C2_stdout_count (fwStore bwStore : Store) (fwMeet bwMeet : Nat)
    (mx my : Int) (fuel : Nat) :
    hdaStdout fwStore bwStore fwMeet bwMeet mx my fuel =
      [(hdaPrintBack fwStore bwStore fwMeet bwMeet mx my fuel).1.length] ∧
    mainStdout fwStore bwStore fwMeet bwMeet mx my fuel = [] ∧
    (mainPrintBack fwStore bwStore fwMeet bwMeet mx my fuel).1 =
      (hdaPrintBack fwStore bwStore fwMeet bwMeet mx my fuel).1 := by
  refine ⟨?_, rfl, rfl⟩
  unfold hdaStdout hdaPrintBack
  dsimp only
  rw [printLoop_count, printLoop_count]
  simp only [List.length_cons, List.length_append, List.cons.injEq, and_true]
  omega

/-! ### C10: the wall predicate and out-of-bounds probes -/

/-- Byte-level model of maze_lines (part_003 maze.h line 162:
file->lines[y][x], no bounds check). The mapped file is a flat byte
buffer; lines[y] begins at offset header + y * (cols + 1) because every
maze line holds exactly cols bytes plus a terminating newline
(part_002 maze_file_init). Reads outside the mapped buffer give none. -/
def maze_lines_byte (buf : List Char) (header cols : Nat) (x y : Int) :
    Option Char :=
  let off : Int := (header : Int) + y * ((cols : Int) + 1) + x
  if h : 0 ≤ off ∧ off.toNat < buf.length then
    some (buf.get ⟨off.toNat, h.2⟩)
  else none

/-- The byte buffer of a 3x3 maze file: header line then three maze
lines, each of 3 bytes plus a newline. -/
def mazeBufEx : List Char := String.toList "3 3\n###\n#.#\n###\n"

/-- C10 counterexample: at x = cols the macro reads the line's newline
byte and at x = -1 the previous line's newline byte; both differ from
'#', so the wall test (maze_lines != '#', main.c line 226) treats these
out-of-maze coordinates as traversable, not as walls. -/
theorem claim_C10_counterexample :
    maze_lines_byte mazeBufEx 4 3 3 1 = some '\x0a' ∧
    maze_lines_byte mazeBufEx 4 3 (-1) 1 = some '\x0a' ∧
    ('\x0a' : Char) ≠ '#' ∧
    maze_lines_byte mazeBufEx 4 3 1 1 = some '.' ∧
    maze_lines_byte mazeBufEx 4 3 0 0 = some '#' := by decide

/-- C10 (amended): the wall test classifies a cell as blocked exactly
when its byte is '#' — a neighbor whose byte is '#' is skipped — and
there is no bounds check; out-of-bounds coordinates can read non-'#'
bytes (such as newlines) and be treated as traversable. The search stays
safe only on mazes whose border is all walls: then every allocated node
is strictly interior and each of its four neighbor probes lands in
bounds. -/
theorem claim_C10_wall_predicate (f : GridFile) (hb : BorderWalls f)
    (h1 : openCell f (cfgFw f).sx (cfgFw f).sy)
    (h2 : openCell f (cfgBw f).sx (cfgBw f).sy) (n : Nat) :
    (∀ (st : DirSt) (nid : Nat) (gs nx ny : Int),
      f.line nx ny = '#' → openNbr f st nid gs nx ny = st) ∧
    (∀ id, id < (runSys f n).fw.nextId →
      (1 ≤ ((runSys f n).fw.store id).x ∧
        ((runSys f n).fw.store id).x ≤ f.cols - 2 ∧
        1 ≤ ((runSys f n).fw.store id).y ∧
        ((runSys f n).fw.store id).y ≤ f.rows - 2) ∧
      ∀ x2 y2, adjacent ((runSys f n).fw.store id).x
        ((runSys f n).fw.store id).y x2 y2 → inB f x2 y2) ∧
    (∀ id, id < (runSys f n).bw.nextId →
      (1 ≤ ((runSys f n).bw.store id).x ∧
        ((runSys f n).bw.store id).x ≤ f.cols - 2 ∧
        1 ≤ ((runSys f n).bw.store id).y ∧
        ((runSys f n).bw.store id).y ≤ f.rows - 2) ∧
      ∀ x2 y2, adjacent ((runSys f n).bw.store id).x
        ((runSys f n).bw.store id).y x2 y2 → inB f x2 y2) := by
  have hOK := runSys_OK hb h1 h2 n
  refine ⟨?_, ?_, ?_⟩
  · intro st nid gs nx ny hwall
    unfold openNbr
    rw [if_neg (not_not_intro hwall)]
  · intro id hid
    have hint := open_interior hb (hOK.1.1 id hid).1
    exact ⟨hint, fun x2 y2 hadj => interior_nbr_inB hint hadj⟩
  · intro id hid
    have hint := open_interior hb (hOK.2.1.1 id hid).1
    exact ⟨hint, fun x2 y2 hadj => interior_nbr_inB hint hadj⟩

theorem claim_C10_witness :
    (((runSys blockedFile 2).fw.store 0).x ≤ blockedFile.cols - 2) ∧
    ∀ x2 y2, adjacent ((runSys blockedFile 2).bw.store 0).x
      ((runSys blockedFile 2).bw.store 0).y x2 y2 → inB blockedFile x2 y2 :=
  ⟨((claim_C10_wall_predicate blockedFile blockedFile_border blockedFile_openF
      blockedFile_openB 2).2.1 0 (by decide)).1.2.1,
   ((claim_C10_wall_predicate blockedFile blockedFile_border blockedFile_openF
      blockedFile_openB 2).2.2 0 (by decide)).2⟩

theorem claim_C7_witness :
    (workerIter blockedFile (cfgBw blockedFile) meEx7 meEx7 shEx7).1.heap.hsize
      = 1 ∧
    (workerIter blockedFile (cfgBw blockedFile) meEx7 meEx7 shEx7).1.received =
      meEx7.received + (meEx7.heap.hsize - 2) + 1 ∧
    (workerIter blockedFile (cfgBw blockedFile) meEx7 meEx7 shEx7).2 = shEx7 :=
  claim_C7_amended blockedFile (cfgBw blockedFile) meEx7 meEx7 shEx7
    (by decide) (by decide)

end HDAStar
